import Mathlib

/-!
image8bit: a verification development

A shallow embedding of `image8bit.c` (8-bit gray-level images stored as a raster
scan) together with theorems about its operations.

Modelling conventions

* A C `int` is a Lean `Int`; arithmetic on it is exact (signed overflow is undefined
  in C, so the statements are about executions in which it does not occur).
* The one place where numbers of any size reach the program from outside is the header
  of a file.  `ImageLoad` is the loader with exact integers, like the rest of the
  development; `ImageLoad32` is the same code with the header numbers and the pixel
  count held in 32-bit `int`s, as the machine has them.  The two agree whenever the
  numbers fit (`ImageLoad32_of_ImageLoad`).
* A `uint8` is a `Nat` below 256; every conversion to `uint8` is an explicit `% 256`.
* The pixel array is a `List Nat`; an access outside the list, like a failed `assert`,
  aborts the operation, which is the result `none`.
* `malloc` may hand back any bytes: the contents of a fresh block are the parameter
  `mem` (`mem i` is the byte found at offset `i`).  Allocation itself always succeeds.
* A `for` loop whose counter runs over `k` consecutive values is `forRange`.
-/

namespace Image8bit

/-- The constant `PixMax`: the largest gray level a pixel can hold. -/
def PixMax : Nat := 255

/-- The C structure `struct image`: dimensions, maximum gray value and the raster scan. -/
structure Image where
  width : Int
  height : Int
  maxval : Int
  pixel : List Nat
deriving DecidableEq, Repr

/-- The representation invariant established by `ImageCreate` and `ImageLoad`:
non-negative dimensions, `0 < maxval ≤ PixMax`, one byte per pixel. -/
def Image.wf (img : Image) : Prop :=
  0 ≤ img.width ∧ 0 ≤ img.height ∧ 0 < img.maxval ∧ img.maxval ≤ 255 ∧
  img.pixel.length = (img.width * img.height).toNat ∧ ∀ p ∈ img.pixel, p < 256

instance (img : Image) : Decidable img.wf := by
  unfold Image.wf; infer_instance

/-- The loop `for (i = lo; i < lo + k; i++) s = body(i, s)`, aborting as soon as the
body aborts. -/
def forRange {σ : Type} (body : Nat → σ → Option σ) : Nat → Nat → σ → Option σ
  | _, 0, s => some s
  | i, k + 1, s =>
    match body i s with
    | none => none
    | some s' => forRange body (i + 1) k s'

/-- `ImageCreate`: the three assertions, then a block of `width*height` bytes straight
from `malloc` (the code does not clear it). -/
def ImageCreate (mem : Nat → Nat) (width height : Int) (maxval : Nat) : Option Image :=
  if 0 ≤ width ∧ 0 ≤ height ∧ (0 < maxval ∧ maxval ≤ PixMax) then
    some { width := width, height := height, maxval := (maxval : Int),
           pixel := (List.range (width * height).toNat).map (fun i => mem i % 256) }
  else none

/-! ### The PGM codec

A file is the list of its bytes.  `fscanf` and `fread` consume the front of the list and
leave the rest; input and output themselves never fail. -/

/-- The C function `isspace` in the C locale: space, `\t`, `\n`, `\v`, `\f`, `\r`. -/
def isspace (c : Nat) : Bool := c == 32 || (decide (9 ≤ c) && decide (c ≤ 13))

/-- The C function `isdigit`. -/
def isdigit (c : Nat) : Bool := decide (48 ≤ c) && decide (c ≤ 57)

/-- A white-space directive of `fscanf`: skip any amount of white space. -/
def skipSpace : List Nat → List Nat
  | [] => []
  | c :: cs => if isspace c then skipSpace cs else c :: cs

/-- The decimal digits of `n`, most significant first; `fuel` bounds the number of digits. -/
def printDigits : Nat → Nat → List Nat
  | 0, _ => []
  | fuel + 1, n => if n < 10 then [48 + n] else printDigits fuel (n / 10) ++ [48 + n % 10]

/-- The conversion `%u` of `fprintf`. -/
def printNat (n : Nat) : List Nat := printDigits (n + 1) n

/-- The conversion `%d` of `fprintf`. -/
def printInt (n : Int) : List Nat :=
  if n < 0 then 45 :: printNat n.natAbs else printNat n.toNat

/-- Read decimal digits, accumulating their value. -/
def scanDigits (acc : Nat) : List Nat → Nat × List Nat
  | [] => (acc, [])
  | c :: cs => if isdigit c then scanDigits (acc * 10 + (c - 48)) cs else (acc, c :: cs)

/-- The conversion `%d` of `fscanf`: skip white space, accept an optional sign, and read
at least one digit.  The result is the value (the number as it is written, however long)
and the rest of the input, or `none` when the input does not match. -/
def scanInt (f : List Nat) : Option (Int × List Nat) :=
  match skipSpace f with
  | [] => none
  | c :: cs =>
    if c = 45 then
      match cs with
      | [] => none
      | d :: _ => if isdigit d then some (-((scanDigits 0 cs).1 : Int), (scanDigits 0 cs).2) else none
    else if c = 43 then
      match cs with
      | [] => none
      | d :: _ => if isdigit d then some (((scanDigits 0 cs).1 : Int), (scanDigits 0 cs).2) else none
    else if isdigit c then some (((scanDigits 0 (c :: cs)).1 : Int), (scanDigits 0 (c :: cs)).2)
    else none

/-- The loop of `skipComments`: each round is one `fscanf(f, "#%*[^\n]%c", &c)`, which
matches `#`, then a non-empty run of bytes other than `\n`, then one more byte.  The
loop stops at the first round that does not match, leaving the input where that round
stopped reading. -/
def skipCommentsLoop : Nat → List Nat → List Nat
  | 0, f => f
  | fuel + 1, f =>
    match f with
    | [] => []
    | c :: rest =>
      if c = 35 then
        if rest.takeWhile (fun b => b != 10) = [] then rest
        else
          match rest.dropWhile (fun b => b != 10) with
          | [] => []
          | _ :: rest' => skipCommentsLoop fuel rest'
      else c :: rest

/-- `skipComments`: skip zero or more comment lines. -/
def skipComments (f : List Nat) : List Nat := skipCommentsLoop f.length f

/-- `ImageSave`: the bytes written by `fprintf(f, "P5\n%d %d\n%u\n", w, h, maxval)`
followed by the `w*h` bytes of the pixel array. -/
def ImageSave (img : Image) : List Nat :=
  let w := img.width
  let h := img.height
  let maxval : Nat := (img.maxval % 256).toNat
  [80, 53, 10] ++ printInt w ++ [32] ++ printInt h ++ [10] ++ printNat maxval ++ [10] ++
    img.pixel.take (w * h).toNat

/-- `ImageLoad`: parse the header, create the image and read `w*h` bytes into it.  The
result is `none` when a check of the chain fails.  The header numbers and the count
`w*h` are exact integers here; `ImageLoad32` below has them in 32 bits. -/
def ImageLoad (mem : Nat → Nat) (f : List Nat) : Option Image :=
  match f with
  | 80 :: c :: f1 =>
    if c = 53 then
      match scanInt (skipComments (skipSpace f1)) with
      | none => none
      | some (w, f2) =>
        if w ≥ 0 then
          match scanInt (skipComments (skipSpace f2)) with
          | none => none
          | some (h, f3) =>
            if h ≥ 0 then
              match scanInt (skipComments (skipSpace f3)) with
              | none => none
              | some (maxval, f4) =>
                if 0 < maxval ∧ maxval ≤ (PixMax : Int) then
                  match f4 with
                  | [] => none
                  | c :: f5 =>
                    if isspace c then
                      match ImageCreate mem w h (maxval % 256).toNat with
                      | none => none
                      | some img =>
                        if (f5.take (w * h).toNat).length = (w * h).toNat then
                          some { img with
                            pixel := f5.take (w * h).toNat ++ img.pixel.drop (w * h).toNat }
                        else none
                    else none
                else none
            else none
        else none
    else none
  | _ => none

/-- The value `strtol` returns for a number: the number itself when it fits in a 64-bit
`long`, and the nearest bound otherwise. -/
def satLong (n : Int) : Int :=
  if n > 9223372036854775807 then 9223372036854775807
  else if n < -9223372036854775808 then -9223372036854775808
  else n

/-- The conversion of an integer to a 32-bit `int`: the value modulo `2^32` that lies in
`[-2^31, 2^31)`. -/
def toInt32 (n : Int) : Int := (n + 2147483648) % 4294967296 - 2147483648

/-- What `fscanf` stores into the `int` behind a `%d`.  C leaves a number that does not
fit undefined; here it is what the GNU C library does on a 64-bit target: the digits are
converted as by `strtol` and the `long` is cut down to an `int`. -/
def storeInt (n : Int) : Int := toInt32 (satLong n)

/-- The conversion `%d` of `fscanf` into a 32-bit `int`: the number that is written in
the input (`scanInt`), as it is stored. -/
def scanInt32 (f : List Nat) : Option (Int × List Nat) :=
  match scanInt f with
  | none => none
  | some (n, rest) => some (storeInt n, rest)

/-- `ImageLoad` with `int w, h, maxval` held in 32 bits: the same chain of checks, on the
numbers as `%d` stores them.  The count `w*h` given to `fread` is an `int` product: it
is cut down to 32 bits (C leaves the overflow undefined), and a negative count, taken as
a `size_t`, is more than any file holds.  The array itself is allocated by `ImageCreate`
with the product computed in `size_t`, that is exactly. -/
def ImageLoad32 (mem : Nat → Nat) (f : List Nat) : Option Image :=
  match f with
  | 80 :: c :: f1 =>
    if c = 53 then
      match scanInt32 (skipComments (skipSpace f1)) with
      | none => none
      | some (w, f2) =>
        if w ≥ 0 then
          match scanInt32 (skipComments (skipSpace f2)) with
          | none => none
          | some (h, f3) =>
            if h ≥ 0 then
              match scanInt32 (skipComments (skipSpace f3)) with
              | none => none
              | some (maxval, f4) =>
                if 0 < maxval ∧ maxval ≤ (PixMax : Int) then
                  match f4 with
                  | [] => none
                  | c :: f5 =>
                    if isspace c then
                      match ImageCreate mem w h (maxval % 256).toNat with
                      | none => none
                      | some img =>
                        let count : Int := toInt32 (w * h)
                        if 0 ≤ count ∧ (f5.take count.toNat).length = count.toNat then
                          some { img with
                            pixel := f5.take count.toNat ++ img.pixel.drop count.toNat }
                        else none
                    else none
                else none
            else none
        else none
    else none
  | _ => none

/-- `ImageValidPos`: is the position `(x,y)` inside the image? -/
def ImageValidPos (img : Image) (x y : Int) : Bool :=
  (decide (0 ≤ x) && decide (x < img.width)) && (decide (0 ≤ y) && decide (y < img.height))

/-- `ImageValidRect`: both corners `(x,y)` and `(x+w-1, y+h-1)` are valid positions. -/
def ImageValidRect (img : Image) (x y w h : Int) : Bool :=
  if ImageValidPos img x y && ImageValidPos img (x + w - 1) (y + h - 1) then true else false

/-- The index function `G`: both assertions, then the linear index `y*width + x`. -/
def G (img : Image) (x y : Int) : Option Nat :=
  if x ≥ 0 ∧ x < img.width ∧ y ≥ 0 ∧ y < img.height then
    let index := y * img.width + x
    if 0 ≤ index ∧ index < img.width * img.height then some index.toNat else none
  else none

/-- `ImageGetPixel`: the level stored at `(x,y)`. -/
def ImageGetPixel (img : Image) (x y : Int) : Option Nat :=
  if ImageValidPos img x y then
    match G img x y with
    | none => none
    | some i => img.pixel[i]?
  else none

/-- `ImageSetPixel`: store `level` (converted to `uint8`) at `(x,y)`. -/
def ImageSetPixel (img : Image) (x y : Int) (level : Nat) : Option Image :=
  if ImageValidPos img x y then
    match G img x y with
    | none => none
    | some i =>
      if i < img.pixel.length then some { img with pixel := img.pixel.set i (level % 256) }
      else none
  else none

/-- A loop `for (i = lo; i < lo + k; i++)` whose body may `return` a value: the result is
`none` when an iteration aborts, `some (some r)` when the first returning iteration
returns `r`, and `some none` when the loop runs to its end. -/
def forReturn {ρ : Type} (body : Nat → Option (Option ρ)) : Nat → Nat → Option (Option ρ)
  | _, 0 => some none
  | i, k + 1 =>
    match body i with
    | none => none
    | some (some r) => some (some r)
    | some none => forReturn body (i + 1) k

/-- A finite C `double`, held exactly as the fraction `num / den` with `den > 0`.
Products with a gray level are taken exactly. -/
structure Double where
  num : Int
  den : Nat
deriving DecidableEq, Repr

/-- `ImageBrighten`: every level is multiplied by `factor`, the product is converted to
`uint8` (integral part, then reduction modulo 256), and only then compared with
`PixMax`. -/
def ImageBrighten (img : Image) (factor : Double) : Option Image :=
  if 0 ≤ factor.num then
    forRange (fun y img1 =>
      forRange (fun x img2 =>
        match ImageGetPixel img2 x y with
        | none => none
        | some nivelAtual =>
          let novoNivel : Nat := (Int.tdiv ((nivelAtual : Int) * factor.num) factor.den % 256).toNat
          let novoNivel := if novoNivel > PixMax then PixMax else novoNivel
          ImageSetPixel img2 x y novoNivel) 0 img.width.toNat img1) 0 img.height.toNat img
  else none

/-- `ImageRotate`: a fresh `height × width` image into which the level at `(x,y)` is
stored at `(y, width - x - 1)`. -/
def ImageRotate (mem : Nat → Nat) (img : Image) : Option Image :=
  match ImageCreate mem img.height img.width (img.maxval % 256).toNat with
  | none => none
  | some rotatedImage =>
    forRange (fun y r1 =>
      forRange (fun x r2 =>
        match ImageGetPixel img x y with
        | none => none
        | some nivelAtual =>
          let newX : Int := y
          let newY : Int := img.width - x - 1
          ImageSetPixel r2 newX newY nivelAtual) 0 img.width.toNat r1) 0 img.height.toNat
      rotatedImage

/-- `ImageMirror`: a fresh image of the same size; for each `x < width/2` the levels at
`x` and `width - x - 1` are stored swapped. -/
def ImageMirror (mem : Nat → Nat) (img : Image) : Option Image :=
  match ImageCreate mem img.width img.height (img.maxval % 256).toNat with
  | none => none
  | some mirroredImage =>
    forRange (fun y m1 =>
      forRange (fun x m2 =>
        let newX : Int := img.width - x - 1
        match ImageGetPixel img x y with
        | none => none
        | some nivelAtual_1 =>
          match ImageGetPixel img newX y with
          | none => none
          | some nivelAtual_2 =>
            match ImageSetPixel m2 x y nivelAtual_2 with
            | none => none
            | some m3 => ImageSetPixel m3 newX y nivelAtual_1)
        0 (Int.tdiv img.width 2).toNat m1) 0 img.height.toNat mirroredImage

/-- `ImageCrop`: asserts the rectangle, then copies it into a fresh `w × h` image. -/
def ImageCrop (mem : Nat → Nat) (img : Image) (x y w h : Int) : Option Image :=
  if ImageValidRect img x y w h then
    match ImageCreate mem w h (img.maxval % 256).toNat with
    | none => none
    | some croppedImage =>
      forRange (fun dy c1 =>
        forRange (fun dx c2 =>
          match ImageGetPixel img (x + dx) (y + dy) with
          | none => none
          | some nivelAtual => ImageSetPixel c2 dx dy nivelAtual) 0 w.toNat c1) 0 h.toNat
        croppedImage
  else none

/-- `ImagePaste`: asserts the rectangle, then copies `img2` into `img1` at `(x,y)`. -/
def ImagePaste (img1 : Image) (x y : Int) (img2 : Image) : Option Image :=
  if ImageValidRect img1 x y img2.width img2.height then
    forRange (fun dy a1 =>
      forRange (fun dx a2 =>
        match ImageGetPixel img2 dx dy with
        | none => none
        | some nivelAtual => ImageSetPixel a2 (x + dx) (y + dy) nivelAtual)
        0 img2.width.toNat a1) 0 img2.height.toNat img1
  else none

/-- The body of the inner loop of `ImageMatchSubImage`: read both levels and return 0
when they differ. -/
def matchPixel (img1 : Image) (x y : Int) (img2 : Image) (dy dx : Nat) :
    Option (Option Int) :=
  match ImageGetPixel img2 dx dy with
  | none => none
  | some nivelImg2 =>
    match ImageGetPixel img1 (x + dx) (y + dy) with
    | none => none
    | some nivelImg1 => if nivelImg1 ≠ nivelImg2 then some (some 0) else some none

/-- `ImageMatchSubImage`: asserts that `(x,y)` is a position of `img1`, then compares
pixel by pixel and returns 0 at the first difference, 1 when there is none. -/
def ImageMatchSubImage (img1 : Image) (x y : Int) (img2 : Image) : Option Int :=
  if ImageValidPos img1 x y then
    match forReturn (fun dy => forReturn (fun dx => matchPixel img1 x y img2 dy dx)
        0 img2.width.toNat) 0 img2.height.toNat with
    | none => none
    | some (some r) => some r
    | some none => some 1
  else none

/-- The body of the inner loop of `ImageLocateSubImage`: on a match, set `*px`, `*py` and
return 1. -/
def locateStep (img1 img2 : Image) (y x : Nat) : Option (Option (Int × Int × Int)) :=
  match ImageMatchSubImage img1 x y img2 with
  | none => none
  | some r => if r ≠ 0 then some (some (1, (x : Int), (y : Int))) else some none

/-- `ImageLocateSubImage`: scans `y = 0 .. height1 - height2`, `x = 0 .. width1 - width2`
and returns 1 with the position at the first match.  The result is the returned value
together with the values of `*px` and `*py` after the call. -/
def ImageLocateSubImage (img1 : Image) (px py : Int) (img2 : Image) :
    Option (Int × Int × Int) :=
  match forReturn (fun y => forReturn (fun x => locateStep img1 img2 y x)
      0 (img1.width - img2.width + 1).toNat) 0 (img1.height - img2.height + 1).toNat with
  | none => none
  | some (some r) => some r
  | some none => some (0, px, py)

/-- The window loops of `ImageBlur` at the pixel `(x,y)`: `j` runs from `-dy` to `dy`,
`i` from `-dx` to `dx`, and every valid neighbour adds its level to `sum` and one to
`count`.  The result is the pair `(sum, count)`. -/
def blurWindow (img : Image) (dx dy : Int) (x y : Int) : Option (Int × Int) :=
  forRange (fun j sc1 =>
    forRange (fun i sc =>
      let nx : Int := x + (-dx + i)
      let ny : Int := y + (-dy + j)
      if ImageValidPos img nx ny then
        match ImageGetPixel img nx ny with
        | none => none
        | some p => some (sc.1 + (p : Int), sc.2 + 1)
      else some sc) 0 (dx - -dx + 1).toNat sc1) 0 (dy - -dy + 1).toNat (0, 0)

/-- The body of the first pair of loops of `ImageBlur`: the mean over the window,
converted to `uint8`, is stored in the temporary image when `count > 0`. -/
def blurPixel (img : Image) (dx dy : Int) (y x : Nat) (temp : Image) : Option Image :=
  match blurWindow img dx dy x y with
  | none => none
  | some (sum, count) =>
    if count > 0 then
      let average : Nat := (Int.tdiv sum count % 256).toNat
      ImageSetPixel temp x y average
    else some temp

/-- The body of the second pair of loops of `ImageBlur`: copy one pixel back. -/
def copyPixel (temp : Image) (y x : Nat) (img : Image) : Option Image :=
  match ImageGetPixel temp x y with
  | none => none
  | some v => ImageSetPixel img x y v

/-- `ImageBlur`: the means are computed from `img` into a temporary image, which is
then copied back over `img`. -/
def ImageBlur (mem : Nat → Nat) (img : Image) (dx dy : Int) : Option Image :=
  let width := img.width
  let height := img.height
  if dx ≥ 0 ∧ dy ≥ 0 then
    match ImageCreate mem width height (img.maxval % 256).toNat with
    | none => none
    | some temp0 =>
      match forRange (fun y t1 => forRange (fun x t => blurPixel img dx dy y x t)
          0 width.toNat t1) 0 height.toNat temp0 with
      | none => none
      | some temp =>
        forRange (fun y i1 => forRange (fun x i => copyPixel temp y x i)
          0 width.toNat i1) 0 height.toNat img
  else none

/-- The valid positions `(nx, ny)` of an image, row by row. -/
def validPositions (img : Image) : List (Int × Int) :=
  (List.range img.height.toNat).flatMap (fun ny =>
    (List.range img.width.toNat).map (fun (nx : Nat) => ((nx : Int), (ny : Int))))

/-- The clipped box around `(x,y)`, in the words of the specification: the samples at the
valid positions `(nx,ny)` with `|nx - x| ≤ dx` and `|ny - y| ≤ dy`. -/
def boxSamples (img : Image) (x y dx dy : Int) : List Nat :=
  ((validPositions img).filter (fun p => decide (|p.1 - x| ≤ dx ∧ |p.2 - y| ≤ dy))).filterMap
    (fun p => ImageGetPixel img p.1 p.2)

/-- The clipped box mean of the specification: `floor(S / N)` with `S` the sum and `N` the
count of the samples of the box. -/
def boxMean (img : Image) (x y dx dy : Int) : Nat :=
  (boxSamples img x y dx dy).sum / (boxSamples img x y dx dy).length

/-- The level at `(nx,ny)`, and 0 outside the image. -/
def levelAt (img : Image) (nx ny : Int) : Nat :=
  (ImageGetPixel img nx ny).getD 0

/-- What one neighbour `(nx,ny)` adds to the pair `(sum, count)` in `ImageBlur`. -/
def contrib (img : Image) (nx ny : Int) : Int × Int :=
  if ImageValidPos img nx ny then ((levelAt img nx ny : Int), 1) else 0

/-- The pixel array has exactly `width*height` entries. -/
def Image.lenOK (img : Image) : Prop :=
  img.pixel.length = (img.width * img.height).toNat

/-- Two images have the same width, height and maxval. -/
def Image.sameShape (a b : Image) : Prop :=
  a.width = b.width ∧ a.height = b.height ∧ a.maxval = b.maxval

/-- The 2×2 image with levels 10, 20 / 30, 40 and maxval 255. -/
def img2x2 : Image := { width := 2, height := 2, maxval := 255, pixel := [10, 20, 30, 40] }

/-- A 3×3 image with levels 1 … 9 and maxval 255. -/
def img3x3 : Image :=
  { width := 3, height := 3, maxval := 255, pixel := [1, 2, 3, 4, 5, 6, 7, 8, 9] }

/-- A block of memory holding zeros. -/
def zeroMem : Nat → Nat := fun _ => 0

/-- A 3×1 image with levels 1, 2, 3 and maxval 255. -/
def img3x1 : Image := { width := 3, height := 1, maxval := 255, pixel := [1, 2, 3] }

/-- The 1×1 image whose only level is 200. -/
def img200 : Image := { width := 1, height := 1, maxval := 255, pixel := [200] }

/-- The empty image: width 0 and height 0. -/
def img0x0 : Image := { width := 0, height := 0, maxval := 255, pixel := [] }

/-- The factor 2.0. -/
def two : Double := { num := 2, den := 1 }

/-- The body of the loop of `ImageStats` on the pair `(*min, *max)`: read `pixel[i]` and
update the maximum, then the minimum. -/
def statsStep (img : Image) (i : Nat) (mm : Nat × Nat) : Option (Nat × Nat) :=
  match img.pixel[i]? with
  | none => none
  | some currentPixel =>
    let newMax := if currentPixel > mm.2 then currentPixel else mm.2
    let newMin := if currentPixel < mm.1 then currentPixel else mm.1
    some (newMin, newMax)

/-- `ImageStats`: `*min = PixMax`, `*max = 0`, then one scan of the `width*height` entries
of the pixel array.  The result is the pair `(*min, *max)`. -/
def ImageStats (img : Image) : Option (Nat × Nat) :=
  forRange (statsStep img) 0 (img.width * img.height).toNat (PixMax, 0)

/-- `ImageNegative`: every level `pixel` is replaced by `PixMax - pixel`. -/
def ImageNegative (img : Image) : Option Image :=
  let width := img.width
  let height := img.height
  forRange (fun y i1 =>
    forRange (fun x i =>
      match ImageGetPixel i x y with
      | none => none
      | some pixel =>
        let negativePixel : Nat := (((PixMax : Int) - (pixel : Int)) % 256).toNat
        ImageSetPixel i x y negativePixel) 0 width.toNat i1) 0 height.toNat img

/-- `ImageThreshold`: every level below `thr` becomes 0, every other level `PixMax`. -/
def ImageThreshold (img : Image) (thr : Nat) : Option Image :=
  let width := img.width
  let height := img.height
  forRange (fun y i1 =>
    forRange (fun x i =>
      match ImageGetPixel i x y with
      | none => none
      | some pixel =>
        let thresholdedPixel : Nat := if pixel < thr then 0 else PixMax
        ImageSetPixel i x y thresholdedPixel) 0 width.toNat i1) 0 height.toNat img

/-- `ImageBlend`: asserts the rectangle; every covered level of `img1` becomes
`alpha * nivelImg2 + (1 - alpha) * nivelImg1`, saturated at `PixMax` and at 0 and then
converted to `uint8`.  The value is held over the denominator of `alpha`. -/
def ImageBlend (img1 : Image) (x y : Int) (img2 : Image) (alpha : Double) : Option Image :=
  if ImageValidRect img1 x y img2.width img2.height then
    forRange (fun dy a1 =>
      forRange (fun dx a =>
        match ImageGetPixel img2 dx dy with
        | none => none
        | some nivelImg2 =>
          match ImageGetPixel a (x + dx) (y + dy) with
          | none => none
          | some nivelImg1 =>
            let novoNivel : Double :=
              { num := alpha.num * (nivelImg2 : Int) +
                  ((alpha.den : Int) - alpha.num) * (nivelImg1 : Int),
                den := alpha.den }
            let novoNivel : Double :=
              if novoNivel.num > (PixMax : Int) * novoNivel.den then { num := PixMax, den := 1 }
              else novoNivel
            let novoNivel : Double :=
              if novoNivel.num < 0 then { num := 0, den := 1 } else novoNivel
            let novoNivel : Nat := (Int.tdiv novoNivel.num novoNivel.den % 256).toNat
            ImageSetPixel a (x + dx) (y + dy) novoNivel)
        0 img2.width.toNat a1) 0 img2.height.toNat img1
  else none

/-- The factor 1.0. -/
def one : Double := { num := 1, den := 1 }

/-- A block of memory in which every byte is 7. -/
def sevenMem : Nat → Nat := fun _ => 7

/-- The 2×2 block at `(1,1)` of `img3x3`. -/
def img5689 : Image := { width := 2, height := 2, maxval := 255, pixel := [5, 6, 8, 9] }

/-- A numeric field, in the words of the specification: the input starts with a decimal
digit, or with a sign followed by a decimal digit.  A field that is missing or that is
not numeric does not. -/
def startsWithNumber : List Nat → Bool
  | [] => false
  | [c] => isdigit c
  | c :: d :: _ => isdigit c || ((c == 45 || c == 43) && isdigit d)

/-- A number fits in a 32-bit `int`. -/
def fitsInt (n : Int) : Prop := -2147483648 ≤ n ∧ n < 2147483648

instance (n : Int) : Decidable (fitsInt n) := by
  unfold fitsInt; infer_instance

/-- The width, the height and the number of pixels of an image fit in an `int`. -/
def Image.intSized (img : Image) : Prop :=
  img.width < 2147483648 ∧ img.height < 2147483648 ∧ img.width * img.height < 2147483648

instance (img : Image) : Decidable img.intSized := by
  unfold Image.intSized; infer_instance

/-- The magic token of a file, in the words of the specification: the bytes before the
first white-space byte. -/
def magicToken (f : List Nat) : List Nat := f.takeWhile (fun c => !isspace c)

/-- The file `P52 1\n7\tAB`: the magic `P5` with no white space before the width 2. -/
def fileP52 : List Nat := [80, 53, 50, 32, 49, 10, 55, 9, 65, 66]

/-- The file `P5\n1 1\n4294967551\nA`, whose maxval field is `2^32 + 255`. -/
def fileBigMaxval : List Nat :=
  [80, 53, 10, 49, 32, 49, 10, 52, 50, 57, 52, 57, 54, 55, 53, 53, 49, 10, 65]

/-- The file `P5\n4294967296 1\n255\n`, whose width field is `2^32` and which holds no
pixel byte. -/
def fileBigWidth : List Nat :=
  [80, 53, 10, 52, 50, 57, 52, 57, 54, 55, 50, 57, 54, 32, 49, 10, 50, 53, 53, 10]

/-- The file `P5\n65536 65536\n255\n`, which ends with its header. -/
def fileHuge : List Nat :=
  [80, 53, 10, 54, 53, 53, 51, 54, 32, 54, 53, 53, 51, 54, 10, 50, 53, 53, 10]

/-! ## Theorems -/

/-! ### Positions, indices, and the get/set laws -/

theorem validPos_iff (img : Image) (x y : Int) :
    ImageValidPos img x y = true ↔ 0 ≤ x ∧ x < img.width ∧ 0 ≤ y ∧ y < img.height := by
  simp [ImageValidPos, and_assoc]

theorem validPos_false_iff (img : Image) (x y : Int) :
    ImageValidPos img x y = false ↔ ¬ (0 ≤ x ∧ x < img.width ∧ 0 ≤ y ∧ y < img.height) := by
  rw [← validPos_iff]; simp

theorem validPos_congr {a b : Image} (h : a.sameShape b) (x y : Int) :
    ImageValidPos a x y = ImageValidPos b x y := by
  obtain ⟨hw, hh, _⟩ := h
  simp [ImageValidPos, hw, hh]

theorem index_bound {W H x y : Int} (hx0 : 0 ≤ x) (hx : x < W) (hy0 : 0 ≤ y) (hy : y < H) :
    0 ≤ y * W + x ∧ y * W + x < W * H := by
  have h1 : 0 ≤ y * W := mul_nonneg hy0 (by omega)
  have h2 : (y + 1) * W ≤ H * W := mul_le_mul_of_nonneg_right (by omega) (by omega)
  constructor
  · omega
  · nlinarith

theorem index_inj {W x y x' y' : Int} (hx0 : 0 ≤ x) (hx : x < W) (hx0' : 0 ≤ x')
    (hx' : x' < W) (h : y * W + x = y' * W + x') : x = x' ∧ y = y' := by
  have hy : y = y' := by
    rcases lt_trichotomy y y' with hlt | heq | hgt
    · have : (y + 1) * W ≤ y' * W := mul_le_mul_of_nonneg_right (by omega) (by omega)
      nlinarith
    · exact heq
    · have : (y' + 1) * W ≤ y * W := mul_le_mul_of_nonneg_right (by omega) (by omega)
      nlinarith
  subst hy
  exact ⟨by omega, rfl⟩

theorem G_eq {img : Image} {x y : Int} (hv : ImageValidPos img x y = true) :
    G img x y = some (y * img.width + x).toNat := by
  obtain ⟨h1, h2, h3, h4⟩ := (validPos_iff img x y).1 hv
  have hb := index_bound h1 h2 h3 h4
  simp [G, h1, h2, h3, h4, hb.1, hb.2]

theorem index_lt_length {img : Image} {x y : Int} (hlen : img.lenOK)
    (hv : ImageValidPos img x y = true) : (y * img.width + x).toNat < img.pixel.length := by
  obtain ⟨h1, h2, h3, h4⟩ := (validPos_iff img x y).1 hv
  have hb := index_bound h1 h2 h3 h4
  rw [hlen]
  omega

theorem getPixel_eq {img : Image} {x y : Int} (hv : ImageValidPos img x y = true) :
    ImageGetPixel img x y = img.pixel[(y * img.width + x).toNat]? := by
  simp [ImageGetPixel, hv, G_eq hv]

theorem getPixel_invalid {img : Image} {x y : Int} (hv : ImageValidPos img x y = false) :
    ImageGetPixel img x y = none := by
  simp [ImageGetPixel, hv]

theorem getPixel_isSome {img : Image} {x y : Int} (hlen : img.lenOK)
    (hv : ImageValidPos img x y = true) :
    ∃ v, ImageGetPixel img x y = some v ∧ v ∈ img.pixel := by
  have hlt := index_lt_length hlen hv
  refine ⟨img.pixel[(y * img.width + x).toNat], ?_, List.getElem_mem _⟩
  rw [getPixel_eq hv, List.getElem?_eq_getElem hlt]

/-- Writing a valid position of an image succeeds, keeps the shape, and changes the
reading at that position only. -/
theorem setPixel_spec {img : Image} {x y : Int} (v : Nat) (hlen : img.lenOK)
    (hv : ImageValidPos img x y = true) :
    ∃ img', ImageSetPixel img x y v = some img' ∧ img'.sameShape img ∧ img'.lenOK ∧
      ImageGetPixel img' x y = some (v % 256) ∧
      ∀ x' y', ¬ (x' = x ∧ y' = y) → ImageGetPixel img' x' y' = ImageGetPixel img x' y' := by
  have hlt := index_lt_length hlen hv
  refine ⟨{ img with pixel := img.pixel.set (y * img.width + x).toNat (v % 256) }, ?_,
    ⟨rfl, rfl, rfl⟩, ?_, ?_, ?_⟩
  · simp [ImageSetPixel, hv, G_eq hv, hlt]
  · simp [Image.lenOK, List.length_set]
    exact hlen
  · have hv' : ImageValidPos { img with pixel := img.pixel.set (y * img.width + x).toNat (v % 256) }
        x y = true := hv
    rw [getPixel_eq hv']
    simp [hlt]
  · intro x' y' hne
    by_cases hv2 : ImageValidPos img x' y' = true
    · have hv2' : ImageValidPos
          { img with pixel := img.pixel.set (y * img.width + x).toNat (v % 256) } x' y' = true := hv2
      rw [getPixel_eq hv2', getPixel_eq hv2]
      obtain ⟨a1, a2, a3, a4⟩ := (validPos_iff img x y).1 hv
      obtain ⟨b1, b2, b3, b4⟩ := (validPos_iff img x' y').1 hv2
      have hb := index_bound a1 a2 a3 a4
      have hb' := index_bound b1 b2 b3 b4
      have hidx : (y * img.width + x).toNat ≠ (y' * img.width + x').toNat := by
        intro he
        have he' : y * img.width + x = y' * img.width + x' := by omega
        have := index_inj a1 a2 b1 b2 he'
        exact hne ⟨this.1.symm, this.2.symm⟩
      simp [List.getElem?_set_ne hidx]
    · have hv3 : ImageValidPos img x' y' = false := by simpa using hv2
      have hv3' : ImageValidPos
          { img with pixel := img.pixel.set (y * img.width + x).toNat (v % 256) } x' y' = false := hv3
      rw [getPixel_invalid hv3, getPixel_invalid hv3']

/-! ### Loops -/

/-- The invariant rule for `forRange`: an invariant that holds on entry and is carried by
every iteration (which must not abort) holds on exit, and the loop does not abort. -/
theorem forRange_inv {σ : Type} (body : Nat → σ → Option σ) (Inv : Nat → σ → Prop) :
    ∀ (k lo : Nat) (s : σ), Inv lo s →
      (∀ i s, lo ≤ i → i < lo + k → Inv i s → ∃ s', body i s = some s' ∧ Inv (i + 1) s') →
      ∃ s', forRange body lo k s = some s' ∧ Inv (lo + k) s' := by
  intro k
  induction k with
  | zero =>
    intro lo s h0 _
    exact ⟨s, rfl, by simpa using h0⟩
  | succ k ih =>
    intro lo s h0 hstep
    obtain ⟨s1, hb, h1⟩ := hstep lo s (le_refl _) (by omega) h0
    obtain ⟨s2, hr, h2⟩ := ih (lo + 1) s1 h1
      (fun i s hi hlt hinv => hstep i s (by omega) (by omega) hinv)
    refine ⟨s2, ?_, ?_⟩
    · simp [forRange, hb, hr]
    · have : lo + (k + 1) = lo + 1 + k := by omega
      rw [this]
      exact h2

theorem sameShape_refl (a : Image) : a.sameShape a := ⟨rfl, rfl, rfl⟩

theorem sameShape_trans {a b c : Image} (h1 : a.sameShape b) (h2 : b.sameShape c) :
    a.sameShape c :=
  ⟨h1.1.trans h2.1, h1.2.1.trans h2.2.1, h1.2.2.trans h2.2.2⟩

/-- One row of a raster fill: a loop whose iteration `b` stores `val b` at the position
`(px b, py b)`, the positions being valid and pairwise distinct.  The iteration may read
the image it writes, but only at the position it is about to write. -/
theorem fill_row (body : Nat → Image → Option Image) (B : Nat) (px py : Nat → Int)
    (val : Nat → Nat) (s0 : Image) (hlen : s0.lenOK)
    (hvalid : ∀ b, b < B → ImageValidPos s0 (px b) (py b) = true)
    (hinj : ∀ b b', b < B → b' < B → px b = px b' → py b = py b' → b = b')
    (hbody : ∀ b s, b < B → s.sameShape s0 → s.lenOK →
      ImageGetPixel s (px b) (py b) = ImageGetPixel s0 (px b) (py b) →
      body b s = ImageSetPixel s (px b) (py b) (val b)) :
    ∃ s', forRange body 0 B s0 = some s' ∧ s'.sameShape s0 ∧ s'.lenOK ∧
      (∀ b, b < B → ImageGetPixel s' (px b) (py b) = some (val b % 256)) ∧
      (∀ X Y, (∀ b, b < B → ¬ (px b = X ∧ py b = Y)) →
        ImageGetPixel s' X Y = ImageGetPixel s0 X Y) := by
  have key := forRange_inv body
    (fun i s => i ≤ B ∧ s.sameShape s0 ∧ s.lenOK ∧
      (∀ b, b < i → ImageGetPixel s (px b) (py b) = some (val b % 256)) ∧
      (∀ X Y, (∀ b, b < i → ¬ (px b = X ∧ py b = Y)) →
        ImageGetPixel s X Y = ImageGetPixel s0 X Y))
    B 0 s0 ⟨Nat.zero_le _, sameShape_refl _, hlen, fun b hb => absurd hb (Nat.not_lt_zero _),
      fun _ _ _ => rfl⟩ ?_
  · obtain ⟨s', hrun, _, h2, h3, h4, h5⟩ := key
    simp only [Nat.zero_add] at h4 h5
    exact ⟨s', hrun, h2, h3, h4, h5⟩
  · intro i s _ hi ⟨_, hsh, hl, hdone, hrest⟩
    have hiB : i < B := by omega
    have hvs : ImageValidPos s (px i) (py i) = true := by
      rw [validPos_congr hsh]; exact hvalid i hiB
    have hcur : ImageGetPixel s (px i) (py i) = ImageGetPixel s0 (px i) (py i) := by
      apply hrest
      intro b hb hpos
      have := hinj b i (by omega) hiB hpos.1 hpos.2
      omega
    obtain ⟨s1, hset, hsh1, hl1, hget, hother⟩ := setPixel_spec (val i) hl hvs
    refine ⟨s1, ?_, by omega, sameShape_trans hsh1 hsh, hl1, ?_, ?_⟩
    · rw [hbody i s hiB hsh hl hcur, hset]
    · intro b hb
      by_cases hbi : b = i
      · subst hbi; exact hget
      · rw [hother]
        · exact hdone b (by omega)
        · intro hpos
          exact hbi (hinj b i (by omega) hiB hpos.1 hpos.2)
    · intro X Y hXY
      rw [hother]
      · exact hrest X Y (fun b hb => hXY b (by omega))
      · intro hpos
        exact hXY i (by omega) ⟨hpos.1.symm, hpos.2.symm⟩

/-- A raster fill: two nested loops whose iteration `(a,b)` stores `val a b` at the
position `(px a b, py a b)`, the positions being valid and pairwise distinct. -/
theorem fill_raster (body : Nat → Nat → Image → Option Image) (A B : Nat)
    (px py : Nat → Nat → Int) (val : Nat → Nat → Nat) (s0 : Image) (hlen : s0.lenOK)
    (hvalid : ∀ a b, a < A → b < B → ImageValidPos s0 (px a b) (py a b) = true)
    (hinj : ∀ a b a' b', a < A → b < B → a' < A → b' < B →
      px a b = px a' b' → py a b = py a' b' → a = a' ∧ b = b')
    (hbody : ∀ a b s, a < A → b < B → s.sameShape s0 → s.lenOK →
      ImageGetPixel s (px a b) (py a b) = ImageGetPixel s0 (px a b) (py a b) →
      body a b s = ImageSetPixel s (px a b) (py a b) (val a b)) :
    ∃ s', forRange (fun a s => forRange (fun b t => body a b t) 0 B s) 0 A s0 = some s' ∧
      s'.sameShape s0 ∧ s'.lenOK ∧
      (∀ a b, a < A → b < B → ImageGetPixel s' (px a b) (py a b) = some (val a b % 256)) ∧
      (∀ X Y, (∀ a b, a < A → b < B → ¬ (px a b = X ∧ py a b = Y)) →
        ImageGetPixel s' X Y = ImageGetPixel s0 X Y) := by
  have key := forRange_inv (fun a s => forRange (fun b t => body a b t) 0 B s)
    (fun i s => i ≤ A ∧ s.sameShape s0 ∧ s.lenOK ∧
      (∀ a b, a < i → b < B → ImageGetPixel s (px a b) (py a b) = some (val a b % 256)) ∧
      (∀ X Y, (∀ a b, a < i → b < B → ¬ (px a b = X ∧ py a b = Y)) →
        ImageGetPixel s X Y = ImageGetPixel s0 X Y))
    A 0 s0 ⟨Nat.zero_le _, sameShape_refl _, hlen,
      fun a _ ha => absurd ha (Nat.not_lt_zero _), fun _ _ _ => rfl⟩ ?_
  · obtain ⟨s', hrun, _, h2, h3, h4, h5⟩ := key
    simp only [Nat.zero_add] at h4 h5
    exact ⟨s', hrun, h2, h3, h4, h5⟩
  · intro i s _ hi ⟨_, hsh, hl, hdone, hrest⟩
    have hiA : i < A := by omega
    have horig : ∀ b, b < B →
        ImageGetPixel s (px i b) (py i b) = ImageGetPixel s0 (px i b) (py i b) := by
      intro b hb
      apply hrest
      intro a b' ha hb' hpos
      have := hinj a b' i b (by omega) hb' hiA hb hpos.1 hpos.2
      omega
    obtain ⟨s1, hrow, hsh1, hl1, hnew, hold⟩ := fill_row (fun b t => body i b t) B
      (px i) (py i) (val i) s hl
      (fun b hb => by rw [validPos_congr hsh]; exact hvalid i b hiA hb)
      (fun b b' hb hb' h1 h2 => (hinj i b i b' hiA hb hiA hb' h1 h2).2)
      (fun b t hb hsht hlt hgt =>
        hbody i b t hiA hb (sameShape_trans hsht hsh) hlt (hgt.trans (horig b hb)))
    refine ⟨s1, hrow, by omega, sameShape_trans hsh1 hsh, hl1, ?_, ?_⟩
    · intro a b ha hb
      by_cases hai : a = i
      · subst hai; exact hnew b hb
      · rw [hold]
        · exact hdone a b (by omega) hb
        · intro b' hb' hpos
          exact hai (hinj i b' a b hiA hb' (by omega) hb hpos.1 hpos.2).1.symm
    · intro X Y hXY
      rw [hold]
      · exact hrest X Y (fun a b ha hb => hXY a b (by omega) hb)
      · intro b hb
        exact hXY i b (by omega) hb

theorem ImageCreate_spec (mem : Nat → Nat) {w h m : Int} (hw : 0 ≤ w) (hh : 0 ≤ h)
    (hm0 : 0 < m) (hm : m ≤ 255) :
    ∃ r, ImageCreate mem w h (m % 256).toNat = some r ∧ r.width = w ∧ r.height = h ∧
      r.maxval = m ∧ r.lenOK := by
  have h1 : 0 < (m % 256).toNat ∧ (m % 256).toNat ≤ PixMax := by
    unfold PixMax; omega
  have h2 : (((m % 256).toNat : Nat) : Int) = m := by omega
  refine ⟨_, if_pos ⟨hw, hh, h1⟩, rfl, rfl, h2, ?_⟩
  simp [Image.lenOK]

theorem validRect_corners (img : Image) (x y w h : Int) :
    ImageValidRect img x y w h = true ↔
      (0 ≤ x ∧ x < img.width ∧ 0 ≤ y ∧ y < img.height) ∧
      (0 ≤ x + w - 1 ∧ x + w - 1 < img.width ∧ 0 ≤ y + h - 1 ∧ y + h - 1 < img.height) := by
  rw [← validPos_iff, ← validPos_iff]
  simp [ImageValidRect]

/-! ### Rectangles -/

/-- C4, as the code has it: `ImageValidRect` is false whenever `x + w ≤ 0` or
`y + h ≤ 0`, in particular for `w ≤ 0` at `x ≤ 0` and for `h ≤ 0` at `y ≤ 0`.  (Other
rectangles with `w ≤ 0` or `h ≤ 0` are accepted when both corners are valid positions.) -/
theorem ImageValidRect_degenerate (img : Image) (x y w h : Int)
    (hd : x + w ≤ 0 ∨ y + h ≤ 0) : ImageValidRect img x y w h = false := by
  have hrect : ImageValidRect img x y w h = false ↔
      ¬ (ImageValidPos img x y = true ∧ ImageValidPos img (x + w - 1) (y + h - 1) = true) := by
    simp [ImageValidRect]
  rw [hrect, validPos_iff, validPos_iff]
  omega

/-- An instance of C4: an empty rectangle at the origin of the 2×2
image. -/
theorem ImageValidRect_degenerate_witness :
    ((0 : Int) + 0 ≤ 0 ∨ (0 : Int) + 0 ≤ 0) ∧ ImageValidRect img2x2 0 0 0 0 = false :=
  ⟨by decide, ImageValidRect_degenerate img2x2 0 0 0 0 (by decide)⟩

/-- C4 fails as stated: the empty rectangle `(1,1,0,0)` is accepted in the 2×2 image, and
the rectangle `(2,2,-1,-1)` of negative size is accepted in the 3×3 image. -/
theorem ImageValidRect_degenerate_accepted :
    (((0 : Int) ≤ 0 ∨ (0 : Int) ≤ 0) ∧ ImageValidRect img2x2 1 1 0 0 = true) ∧
    (((-1 : Int) ≤ 0 ∨ (-1 : Int) ≤ 0) ∧ ImageValidRect img3x3 2 2 (-1) (-1) = true) := by
  decide

/-- C5: for `w ≥ 1` and `h ≥ 1`, `ImageValidRect` holds exactly when
`0 ≤ x`, `0 ≤ y`, `x + w ≤ width` and `y + h ≤ height`, which is exactly when every
position of the rectangle is a valid position. -/
theorem ImageValidRect_iff (img : Image) (x y w h : Int) (hw : 1 ≤ w) (hh : 1 ≤ h) :
    (ImageValidRect img x y w h = true ↔
      0 ≤ x ∧ 0 ≤ y ∧ x + w ≤ img.width ∧ y + h ≤ img.height) ∧
    (ImageValidRect img x y w h = true ↔
      ∀ dx dy : Int, 0 ≤ dx → dx < w → 0 ≤ dy → dy < h →
        ImageValidPos img (x + dx) (y + dy) = true) := by
  have hrect : ImageValidRect img x y w h = true ↔
      (ImageValidPos img x y = true ∧ ImageValidPos img (x + w - 1) (y + h - 1) = true) := by
    simp [ImageValidRect]
  have h1 : ImageValidRect img x y w h = true ↔
      0 ≤ x ∧ 0 ≤ y ∧ x + w ≤ img.width ∧ y + h ≤ img.height := by
    rw [hrect, validPos_iff, validPos_iff]
    omega
  refine ⟨h1, ?_⟩
  rw [h1]
  constructor
  · intro hb dx dy hdx0 hdx hdy0 hdy
    rw [validPos_iff]
    omega
  · intro hall
    have ha := (validPos_iff _ _ _).1 (hall 0 0 (le_refl 0) (by omega) (le_refl 0) (by omega))
    have hb := (validPos_iff _ _ _).1
      (hall (w - 1) (h - 1) (by omega) (by omega) (by omega) (by omega))
    omega

/-- An instance of C5: the 2×2 rectangle at `(1,1)` of the 3×3 image. -/
theorem ImageValidRect_iff_witness :
    (ImageValidRect img3x3 1 1 2 2 = true ↔
      (0 : Int) ≤ 1 ∧ (0 : Int) ≤ 1 ∧ 1 + 2 ≤ img3x3.width ∧ 1 + 2 ≤ img3x3.height) ∧
    (ImageValidRect img3x3 1 1 2 2 = true ↔
      ∀ dx dy : Int, 0 ≤ dx → dx < 2 → 0 ≤ dy → dy < 2 →
        ImageValidPos img3x3 (1 + dx) (1 + dy) = true) :=
  ImageValidRect_iff img3x3 1 1 2 2 (by decide) (by decide)

/-! ### Geometric transformations -/

/-- C6: `ImageRotate` returns an image of width `height`, height `width` and the same
maxval; the level of every valid source position `(x,y)` is found at `(y, width-1-x)`;
every position of the result is the destination of exactly one source position; and the
2×2 image 10, 20 / 30, 40 becomes 20, 40 / 10, 30. -/
theorem ImageRotate_spec (mem : Nat → Nat) (img : Image) (hwf : img.wf) :
    ∃ r, ImageRotate mem img = some r ∧ r.width = img.height ∧ r.height = img.width ∧
      r.maxval = img.maxval ∧
      (∀ x y, ImageValidPos img x y = true →
        ∃ v, ImageGetPixel img x y = some v ∧
          ImageGetPixel r y (img.width - 1 - x) = some v) ∧
      (∀ x' y', ImageValidPos r x' y' = true →
        ∃! p : Int × Int, ImageValidPos img p.1 p.2 = true ∧
          p.2 = x' ∧ img.width - 1 - p.1 = y') ∧
      ImageRotate mem img2x2 =
        some { width := 2, height := 2, maxval := 255, pixel := [20, 40, 10, 30] } := by
  obtain ⟨h0w, h0h, hm0, hm, hlen, hpix⟩ := hwf
  obtain ⟨r0, hc, hrw, hrh, hrm, hrl⟩ := ImageCreate_spec mem h0h h0w hm0 hm
  have hsrc : ∀ a b : Nat, a < img.height.toNat → b < img.width.toNat →
      ImageValidPos img b a = true := by
    intro a b ha hb
    rw [validPos_iff]; omega
  obtain ⟨r, hrun, hsh, _, hnew, _⟩ := fill_raster
    (fun a b s =>
      match ImageGetPixel img b a with
      | none => none
      | some v => ImageSetPixel s a (img.width - b - 1) v)
    img.height.toNat img.width.toNat (fun a _ => (a : Int)) (fun _ b => img.width - b - 1)
    (fun a b => (ImageGetPixel img b a).getD 0) r0 hrl
    (fun a b ha hb => by rw [validPos_iff, hrw, hrh]; dsimp only; omega)
    (fun a b a' b' _ _ _ _ h1 h2 => by
      simp only at h1 h2
      omega)
    (fun a b s ha hb _ _ _ => by
      obtain ⟨v, hv, _⟩ := getPixel_isSome hlen (hsrc a b ha hb)
      simp [hv])
  refine ⟨r, ?_, hsh.1.trans hrw, hsh.2.1.trans hrh, hsh.2.2.trans hrm, ?_, ?_, ?_⟩
  · unfold ImageRotate
    rw [hc]
    exact hrun
  · intro x y hv
    obtain ⟨h1, h2, h3, h4⟩ := (validPos_iff img x y).1 hv
    obtain ⟨v, hget, hmem⟩ := getPixel_isSome hlen hv
    refine ⟨v, hget, ?_⟩
    have := hnew y.toNat x.toNat (by omega) (by omega)
    simp only [Int.toNat_of_nonneg h1, Int.toNat_of_nonneg h3, hget, Option.getD_some] at this
    have hlt : v < 256 := hpix v hmem
    rw [Nat.mod_eq_of_lt hlt] at this
    have he : img.width - 1 - x = img.width - x - 1 := by omega
    rw [he]
    exact this
  · intro x' y' hv
    have hv' := (validPos_iff r x' y').1 hv
    rw [hsh.1.trans hrw, hsh.2.1.trans hrh] at hv'
    refine ⟨(img.width - 1 - y', x'), ⟨?_, rfl, by simp⟩, ?_⟩
    · rw [validPos_iff]; simp only; omega
    · rintro ⟨p1, p2⟩ ⟨_, hp2, hp1⟩
      simp only at hp1 hp2
      simp only [Prod.mk.injEq]
      omega
  · rfl

/-- An instance of C6 on the 3×3 image. -/
theorem ImageRotate_spec_witness :
    ∃ r, ImageRotate zeroMem img3x3 = some r ∧ r.width = img3x3.height ∧
      r.height = img3x3.width ∧ r.maxval = img3x3.maxval ∧
      (∀ x y, ImageValidPos img3x3 x y = true →
        ∃ v, ImageGetPixel img3x3 x y = some v ∧
          ImageGetPixel r y (img3x3.width - 1 - x) = some v) ∧
      (∀ x' y', ImageValidPos r x' y' = true →
        ∃! p : Int × Int, ImageValidPos img3x3 p.1 p.2 = true ∧
          p.2 = x' ∧ img3x3.width - 1 - p.1 = y') ∧
      ImageRotate zeroMem img2x2 =
        some { width := 2, height := 2, maxval := 255, pixel := [20, 40, 10, 30] } :=
  ImageRotate_spec zeroMem img3x3 (by decide)

/-- C8, as the code has it: when `ImageValidRect` holds and moreover `w ≥ 0` and `h ≥ 0`,
`ImageCrop` succeeds and returns a `w × h` image with the same maxval whose level at
`(dx,dy)` is the source level at `(x+dx, y+dy)`. -/
theorem ImageCrop_spec (mem : Nat → Nat) (img : Image) (x y w h : Int) (hwf : img.wf)
    (hr : ImageValidRect img x y w h = true) (hw : 0 ≤ w) (hh : 0 ≤ h) :
    ∃ r, ImageCrop mem img x y w h = some r ∧ r.width = w ∧ r.height = h ∧
      r.maxval = img.maxval ∧
      ∀ dx dy : Int, 0 ≤ dx → dx < w → 0 ≤ dy → dy < h →
        ∃ v, ImageGetPixel img (x + dx) (y + dy) = some v ∧
          ImageGetPixel r dx dy = some v := by
  obtain ⟨_, _, hm0, hm, hlen, hpix⟩ := hwf
  obtain ⟨r0, hc, hrw, hrh, hrm, hrl⟩ := ImageCreate_spec mem hw hh hm0 hm
  have hcor := (validRect_corners img x y w h).1 hr
  have hsrc : ∀ dx dy : Int, 0 ≤ dx → dx < w → 0 ≤ dy → dy < h →
      ImageValidPos img (x + dx) (y + dy) = true := by
    intro dx dy h1 h2 h3 h4
    rw [validPos_iff]; omega
  obtain ⟨r, hrun, hsh, _, hnew, _⟩ := fill_raster
    (fun a b s =>
      match ImageGetPixel img (x + b) (y + a) with
      | none => none
      | some v => ImageSetPixel s b a v)
    h.toNat w.toNat (fun _ b => (b : Int)) (fun a _ => (a : Int))
    (fun a b => (ImageGetPixel img (x + b) (y + a)).getD 0) r0 hrl
    (fun a b ha hb => by rw [validPos_iff, hrw, hrh]; dsimp only; omega)
    (fun a b a' b' _ _ _ _ h1 h2 => by
      simp only at h1 h2
      omega)
    (fun a b s ha hb _ _ _ => by
      obtain ⟨v, hv, _⟩ := getPixel_isSome hlen
        (hsrc b a (by omega) (by omega) (by omega) (by omega))
      simp [hv])
  refine ⟨r, ?_, hsh.1.trans hrw, hsh.2.1.trans hrh, hsh.2.2.trans hrm, ?_⟩
  · unfold ImageCrop
    rw [if_pos hr, hc]
    exact hrun
  · intro dx dy h1 h2 h3 h4
    obtain ⟨v, hget, hmem⟩ := getPixel_isSome hlen (hsrc dx dy h1 h2 h3 h4)
    refine ⟨v, hget, ?_⟩
    have := hnew dy.toNat dx.toNat (by omega) (by omega)
    simp only [Int.toNat_of_nonneg h1, Int.toNat_of_nonneg h3, hget, Option.getD_some] at this
    rw [Nat.mod_eq_of_lt (hpix v hmem)] at this
    exact this

/-- An instance of C8: the 2×2 rectangle at `(1,1)` of the 3×3 image. -/
theorem ImageCrop_spec_witness :
    ∃ r, ImageCrop zeroMem img3x3 1 1 2 2 = some r ∧ r.width = 2 ∧ r.height = 2 ∧
      r.maxval = img3x3.maxval ∧
      ∀ dx dy : Int, 0 ≤ dx → dx < 2 → 0 ≤ dy → dy < 2 →
        ∃ v, ImageGetPixel img3x3 (1 + dx) (1 + dy) = some v ∧
          ImageGetPixel r dx dy = some v :=
  ImageCrop_spec zeroMem img3x3 1 1 2 2 (by decide) (by decide) (by decide) (by decide)

/-- C8 fails as stated: in the 3×3 image `ImageValidRect` accepts `(2,2,-1,-1)`, and
`ImageCrop` then aborts on the assertion `width >= 0` of `ImageCreate`. -/
theorem ImageCrop_negative_size_aborts :
    ImageValidRect img3x3 2 2 (-1) (-1) = true ∧
      ImageCrop zeroMem img3x3 2 2 (-1) (-1) = none := by
  decide

/-! ### Operations on two images -/

/-- C10: when `ImageValidRect img1 x y img2.width img2.height` holds, `ImagePaste`
succeeds; afterwards `img1` has the same width, height and maxval, its level at
`(x+dx, y+dy)` is the level of `img2` at `(dx,dy)` for every position of `img2`, and
its level at every position outside the rectangle is unchanged.  (`img2` is only read.) -/
theorem ImagePaste_spec (img1 img2 : Image) (x y : Int) (h1 : img1.wf) (h2 : img2.wf)
    (hr : ImageValidRect img1 x y img2.width img2.height = true) :
    ∃ r, ImagePaste img1 x y img2 = some r ∧ r.width = img1.width ∧
      r.height = img1.height ∧ r.maxval = img1.maxval ∧ r.pixel.length = img1.pixel.length ∧
      (∀ dx dy : Int, 0 ≤ dx → dx < img2.width → 0 ≤ dy → dy < img2.height →
        ∃ v, ImageGetPixel img2 dx dy = some v ∧
          ImageGetPixel r (x + dx) (y + dy) = some v) ∧
      (∀ X Y : Int, ¬ (x ≤ X ∧ X < x + img2.width ∧ y ≤ Y ∧ Y < y + img2.height) →
        ImageGetPixel r X Y = ImageGetPixel img1 X Y) := by
  obtain ⟨_, _, _, _, hlen1, _⟩ := h1
  obtain ⟨_, _, _, _, hlen2, hpix2⟩ := h2
  have hcor := (validRect_corners img1 x y img2.width img2.height).1 hr
  have hsrc : ∀ dx dy : Int, 0 ≤ dx → dx < img2.width → 0 ≤ dy → dy < img2.height →
      ImageValidPos img2 dx dy = true := by
    intro dx dy a1 a2 a3 a4
    rw [validPos_iff]; omega
  obtain ⟨r, hrun, hsh, hl, hnew, hold⟩ := fill_raster
    (fun a b s =>
      match ImageGetPixel img2 b a with
      | none => none
      | some v => ImageSetPixel s (x + b) (y + a) v)
    img2.height.toNat img2.width.toNat (fun _ b => x + (b : Int)) (fun a _ => y + (a : Int))
    (fun a b => (ImageGetPixel img2 b a).getD 0) img1 hlen1
    (fun a b ha hb => by rw [validPos_iff]; dsimp only; omega)
    (fun a b a' b' _ _ _ _ e1 e2 => by
      simp only at e1 e2
      omega)
    (fun a b s ha hb _ _ _ => by
      obtain ⟨v, hv, _⟩ := getPixel_isSome hlen2
        (hsrc b a (by omega) (by omega) (by omega) (by omega))
      simp [hv])
  refine ⟨r, ?_, hsh.1, hsh.2.1, hsh.2.2, ?_, ?_, ?_⟩
  · unfold ImagePaste
    rw [if_pos hr]
    exact hrun
  · rw [hl, hlen1, hsh.1, hsh.2.1]
  · intro dx dy a1 a2 a3 a4
    obtain ⟨v, hget, hmem⟩ := getPixel_isSome hlen2 (hsrc dx dy a1 a2 a3 a4)
    refine ⟨v, hget, ?_⟩
    have := hnew dy.toNat dx.toNat (by omega) (by omega)
    simp only [Int.toNat_of_nonneg a1, Int.toNat_of_nonneg a3, hget, Option.getD_some] at this
    rw [Nat.mod_eq_of_lt (hpix2 v hmem)] at this
    exact this
  · intro X Y hout
    apply hold
    intro a b ha hb hpos
    apply hout
    omega

/-- An instance of C10: the 2×2 image pasted at `(1,1)` of the 3×3 image. -/
theorem ImagePaste_spec_witness :
    ∃ r, ImagePaste img3x3 1 1 img2x2 = some r ∧ r.width = img3x3.width ∧
      r.height = img3x3.height ∧ r.maxval = img3x3.maxval ∧
      r.pixel.length = img3x3.pixel.length ∧
      (∀ dx dy : Int, 0 ≤ dx → dx < img2x2.width → 0 ≤ dy → dy < img2x2.height →
        ∃ v, ImageGetPixel img2x2 dx dy = some v ∧
          ImageGetPixel r (1 + dx) (1 + dy) = some v) ∧
      (∀ X Y : Int, ¬ (1 ≤ X ∧ X < 1 + img2x2.width ∧ 1 ≤ Y ∧ Y < 1 + img2x2.height) →
        ImageGetPixel r X Y = ImageGetPixel img3x3 X Y) :=
  ImagePaste_spec img3x3 img2x2 1 1 (by decide) (by decide) (by decide)

/-- C7 fails on the code: the loop of `ImageMirror` stops at `x < width/2`, so for an odd
width the middle column of the result is never written and keeps whatever `malloc`
returned.  On the 3×1 image 1, 2, 3 the result is 3, `mem 1`, 1: its middle level is the
byte found in the fresh block, not the source level 2. -/
theorem ImageMirror_middle_column (mem : Nat → Nat) :
    ImageMirror mem img3x1 =
        some { width := 3, height := 1, maxval := 255, pixel := [3, mem 1 % 256, 1] } ∧
      ImageGetPixel img3x1 (img3x1.width - 1 - 1) 0 = some 2 ∧
      ImageMirror zeroMem img3x1 =
        some { width := 3, height := 1, maxval := 255, pixel := [3, 0, 1] } := by
  refine ⟨rfl, by decide, by decide⟩

/-! ### Pixel transformations -/

/-- C9 fails on the code: `ImageBrighten` converts the product to `uint8` before it
compares with `PixMax`, so the comparison never holds.  Level 200 brightened by the
factor 2.0 becomes 144 (400 modulo 256), where saturation asks for 255. -/
theorem ImageBrighten_wraps :
    ImageBrighten img200 two =
        some { width := 1, height := 1, maxval := 255, pixel := [144] } ∧
      min (200 * 2) 255 = 255 := by
  decide

/-! ### Loops that may return -/

/-- What a `forReturn` loop does: it aborts at the first iteration that aborts, returns at
the first iteration that returns, all earlier iterations having run through; or every
iteration runs through. -/
theorem forReturn_cases {ρ : Type} (body : Nat → Option (Option ρ)) :
    ∀ k lo : Nat,
      (forReturn body lo k = none ∧ ∃ i, lo ≤ i ∧ i < lo + k ∧ body i = none ∧
        ∀ j, lo ≤ j → j < i → body j = some none) ∨
      (∃ r, forReturn body lo k = some (some r) ∧ ∃ i, lo ≤ i ∧ i < lo + k ∧
        body i = some (some r) ∧ ∀ j, lo ≤ j → j < i → body j = some none) ∨
      (forReturn body lo k = some none ∧ ∀ j, lo ≤ j → j < lo + k → body j = some none) := by
  intro k
  induction k with
  | zero =>
    intro lo
    exact Or.inr (Or.inr ⟨rfl, fun j h1 h2 => absurd h2 (by omega)⟩)
  | succ k ih =>
    intro lo
    cases hb : body lo with
    | none =>
      refine Or.inl ⟨by simp [forReturn, hb], lo, le_refl _, by omega, hb, ?_⟩
      intro j h1 h2
      omega
    | some o =>
      cases o with
      | some r =>
        refine Or.inr (Or.inl ⟨r, by simp [forReturn, hb], lo, le_refl _, by omega, hb, ?_⟩)
        intro j h1 h2
        omega
      | none =>
        have hstep : forReturn body lo (k + 1) = forReturn body (lo + 1) k := by
          simp [forReturn, hb]
        have hprev : ∀ i, lo + 1 ≤ i → (∀ j, lo + 1 ≤ j → j < i → body j = some none) →
            ∀ j, lo ≤ j → j < i → body j = some none := by
          intro i _ hall j h1 h2
          by_cases hj : j = lo
          · subst hj; exact hb
          · exact hall j (by omega) h2
        rcases ih (lo + 1) with ⟨hr, i, h1, h2, h3, h4⟩ | ⟨r, hr, i, h1, h2, h3, h4⟩ | ⟨hr, h4⟩
        · exact Or.inl ⟨hstep.trans hr, i, by omega, by omega, h3, hprev i h1 h4⟩
        · exact Or.inr (Or.inl ⟨r, hstep.trans hr, i, by omega, by omega, h3, hprev i h1 h4⟩)
        · refine Or.inr (Or.inr ⟨hstep.trans hr, ?_⟩)
          intro j h1 h2
          by_cases hj : j = lo
          · subst hj; exact hb
          · exact h4 j (by omega) (by omega)

/-- What two nested `forReturn` loops do, in terms of the scan order of the pairs
`(a,b)`: rows in increasing `a`, and `b` increasing within a row. -/
theorem forReturn_nested {ρ : Type} (f : Nat → Nat → Option (Option ρ)) (A B : Nat) :
    (forReturn (fun a => forReturn (fun b => f a b) 0 B) 0 A = none ∧
      ∃ a b, a < A ∧ b < B ∧ f a b = none ∧
        ∀ a' b', a' < A → b' < B → (a' < a ∨ (a' = a ∧ b' < b)) → f a' b' = some none) ∨
    (∃ r, forReturn (fun a => forReturn (fun b => f a b) 0 B) 0 A = some (some r) ∧
      ∃ a b, a < A ∧ b < B ∧ f a b = some (some r) ∧
        ∀ a' b', a' < A → b' < B → (a' < a ∨ (a' = a ∧ b' < b)) → f a' b' = some none) ∨
    (forReturn (fun a => forReturn (fun b => f a b) 0 B) 0 A = some none ∧
      ∀ a b, a < A → b < B → f a b = some none) := by
  have hrow : ∀ a, forReturn (fun b => f a b) 0 B = some none →
      ∀ b, b < B → f a b = some none := by
    intro a ha b hb
    rcases forReturn_cases (fun b => f a b) B 0 with ⟨hr, _⟩ | ⟨r, hr, _⟩ | ⟨_, h4⟩
    · rw [ha] at hr; cases hr
    · rw [ha] at hr; cases hr
    · exact h4 b (Nat.zero_le _) (by omega)
  have hearlier : ∀ a b, a < A →
      (∀ j, 0 ≤ j → j < a → forReturn (fun b => f j b) 0 B = some none) →
      (∀ j, 0 ≤ j → j < b → f a j = some none) →
      ∀ a' b', a' < A → b' < B → (a' < a ∨ (a' = a ∧ b' < b)) → f a' b' = some none := by
    intro a b _ hrows hcols a' b' _ hb' hlt
    rcases hlt with h | ⟨h, h'⟩
    · exact hrow a' (hrows a' (Nat.zero_le _) h) b' hb'
    · subst h; exact hcols b' (Nat.zero_le _) h'
  rcases forReturn_cases (fun a => forReturn (fun b => f a b) 0 B) A 0 with
    ⟨hr, a, _, ha, hbody, hprev⟩ | ⟨r, hr, a, _, ha, hbody, hprev⟩ | ⟨hr, hall⟩
  · rcases forReturn_cases (fun b => f a b) B 0 with
      ⟨_, b, _, hb, hf, hcols⟩ | ⟨r, hr', _⟩ | ⟨hr', _⟩
    · exact Or.inl ⟨hr, a, b, by omega, by omega, hf,
        hearlier a b (by omega) hprev hcols⟩
    · rw [hbody] at hr'; cases hr'
    · rw [hbody] at hr'; cases hr'
  · rcases forReturn_cases (fun b => f a b) B 0 with
      ⟨hr', _⟩ | ⟨r', hr', b, _, hb, hf, hcols⟩ | ⟨hr', _⟩
    · rw [hbody] at hr'; cases hr'
    · rw [hbody] at hr'
      cases hr'
      exact Or.inr (Or.inl ⟨r, hr, a, b, by omega, by omega, hf,
        hearlier a b (by omega) hprev hcols⟩)
    · rw [hbody] at hr'; cases hr'
  · refine Or.inr (Or.inr ⟨hr, ?_⟩)
    intro a b ha hb
    exact hrow a (hall a (Nat.zero_le _) (by omega)) b hb

/-! ### Matching and locating a subimage -/

theorem match_result {img1 img2 : Image} {x y r : Int}
    (h : ImageMatchSubImage img1 x y img2 = some r) : r = 0 ∨ r = 1 := by
  unfold ImageMatchSubImage at h
  split at h
  · rcases forReturn_nested (matchPixel img1 x y img2) img2.height.toNat img2.width.toNat with
      ⟨hr, _⟩ | ⟨r', hr, a, b, _, _, hf, _⟩ | ⟨hr, _⟩
    · rw [hr] at h; cases h
    · rw [hr] at h
      simp only [Option.some.injEq] at h
      subst h
      left
      unfold matchPixel at hf
      split at hf
      · cases hf
      · split at hf
        · cases hf
        · split at hf
          · simp only [Option.some.injEq] at hf
            exact hf.symm
          · cases hf
    · rw [hr] at h
      simp only [Option.some.injEq] at h
      exact Or.inr h.symm
  · cases h

theorem match_total {img1 img2 : Image} {x y : Int} (h1 : img1.lenOK) (h2 : img2.lenOK)
    (hx0 : 0 ≤ x) (hy0 : 0 ≤ y) (hx : x + img2.width ≤ img1.width)
    (hy : y + img2.height ≤ img1.height) (hw : 1 ≤ img2.width) (hh : 1 ≤ img2.height) :
    ∃ r, ImageMatchSubImage img1 x y img2 = some r := by
  have hv : ImageValidPos img1 x y = true := by
    rw [validPos_iff]; omega
  unfold ImageMatchSubImage
  rw [if_pos hv]
  rcases forReturn_nested (matchPixel img1 x y img2) img2.height.toNat img2.width.toNat with
    ⟨_, a, b, ha, hb, hf, _⟩ | ⟨r', hr, _⟩ | ⟨hr, _⟩
  · exfalso
    have hv2 : ImageValidPos img2 b a = true := by
      rw [validPos_iff]; omega
    have hv1 : ImageValidPos img1 (x + b) (y + a) = true := by
      rw [validPos_iff]; omega
    obtain ⟨v2, hg2, _⟩ := getPixel_isSome h2 hv2
    obtain ⟨v1, hg1, _⟩ := getPixel_isSome h1 hv1
    unfold matchPixel at hf
    rw [hg2, hg1] at hf
    simp only at hf
    split at hf <;> cases hf
  · exact ⟨r', by rw [hr]⟩
  · exact ⟨1, by rw [hr]⟩

theorem match_degenerate {img1 img2 : Image} {x y : Int}
    (hv : ImageValidPos img1 x y = true) (hd : img2.width ≤ 0 ∨ img2.height ≤ 0) :
    ImageMatchSubImage img1 x y img2 = some 1 := by
  unfold ImageMatchSubImage
  rw [if_pos hv]
  rcases forReturn_nested (matchPixel img1 x y img2) img2.height.toNat img2.width.toNat with
    ⟨_, a, b, ha, hb, _⟩ | ⟨r', _, a, b, ha, hb, _⟩ | ⟨hr, _⟩
  · omega
  · omega
  · rw [hr]

theorem locateStep_none {img1 img2 : Image} {a b : Nat}
    (h : locateStep img1 img2 a b = none) : ImageMatchSubImage img1 b a img2 = none := by
  unfold locateStep at h
  split at h
  · assumption
  · split at h <;> cases h

theorem locateStep_through {img1 img2 : Image} {a b : Nat}
    (h : locateStep img1 img2 a b = some none) : ImageMatchSubImage img1 b a img2 = some 0 := by
  unfold locateStep at h
  split at h
  · cases h
  · rename_i r hr
    split at h
    · cases h
    · rename_i hne
      rw [hr]
      simp only [ne_eq, Decidable.not_not] at hne
      rw [hne]

theorem locateStep_return {img1 img2 : Image} {a b : Nat} {r : Int × Int × Int}
    (h : locateStep img1 img2 a b = some (some r)) :
    ImageMatchSubImage img1 b a img2 = some 1 ∧ r = (1, (b : Int), (a : Int)) := by
  unfold locateStep at h
  split at h
  · cases h
  · rename_i r' hr
    split at h
    · rename_i hne
      simp only [Option.some.injEq] at h
      rcases match_result hr with h0 | h1
      · exact absurd h0 hne
      · exact ⟨by rw [hr, h1], h.symm⟩
    · cases h

/-- The search away from the empty corner: provided `img1` is not empty or `img2` does
not fit in it, `ImageLocateSubImage` does not abort and either returns 1 with
`(*px,*py)` set to a position in the scanned range that matches and that no other
matching position of the range precedes (smaller `y`, or the same `y` and smaller `x`),
or no position of the range matches and it returns 0 with `(*px,*py)` untouched. -/
theorem ImageLocateSubImage_spec (img1 img2 : Image) (px py : Int) (h1 : img1.wf)
    (h2 : img2.wf)
    (hne : ImageValidPos img1 0 0 = true ∨ img1.width < img2.width ∨
      img1.height < img2.height) :
    (∃ x0 y0 : Int, ImageLocateSubImage img1 px py img2 = some (1, x0, y0) ∧
        (0 ≤ y0 ∧ y0 ≤ img1.height - img2.height ∧ 0 ≤ x0 ∧ x0 ≤ img1.width - img2.width) ∧
        ImageMatchSubImage img1 x0 y0 img2 = some 1 ∧
        ∀ x y : Int, 0 ≤ y → y ≤ img1.height - img2.height → 0 ≤ x →
          x ≤ img1.width - img2.width → ImageMatchSubImage img1 x y img2 = some 1 →
          (y0 < y ∨ (y0 = y ∧ x0 ≤ x))) ∨
    (ImageLocateSubImage img1 px py img2 = some (0, px, py) ∧
        ∀ x y : Int, 0 ≤ y → y ≤ img1.height - img2.height → 0 ≤ x →
          x ≤ img1.width - img2.width → ImageMatchSubImage img1 x y img2 ≠ some 1) := by
  obtain ⟨_, _, _, _, hlen1, _⟩ := h1
  obtain ⟨hw2, hh2, _, _, hlen2, _⟩ := h2
  unfold ImageLocateSubImage
  rcases forReturn_nested (locateStep img1 img2) (img1.height - img2.height + 1).toNat
      (img1.width - img2.width + 1).toNat with
    ⟨_, a, b, ha, hb, hf, hprev⟩ | ⟨r, hr, a, b, ha, hb, hf, hprev⟩ | ⟨hr, hall⟩
  · exfalso
    have hnone := locateStep_none hf
    by_cases hpos : 1 ≤ img2.width ∧ 1 ≤ img2.height
    · obtain ⟨r, hr⟩ := match_total (x := (b : Int)) (y := (a : Int)) hlen1 hlen2
        (by omega) (by omega) (by omega) (by omega) hpos.1 hpos.2
      rw [hr] at hnone
      cases hnone
    · have hv0 : ImageValidPos img1 0 0 = true := by
        rcases hne with h | h | h
        · exact h
        · omega
        · omega
      have hm0 : ImageMatchSubImage img1 0 0 img2 = some 1 :=
        match_degenerate hv0 (by omega)
      by_cases h00 : a = 0 ∧ b = 0
      · obtain ⟨ha0, hb0⟩ := h00
        subst ha0 hb0
        simp only [Nat.cast_zero] at hnone
        rw [hm0] at hnone
        cases hnone
      · have hthrough := locateStep_through (hprev 0 0 (by omega) (by omega) (by omega))
        simp only [Nat.cast_zero] at hthrough
        rw [hm0] at hthrough
        cases hthrough
  · left
    obtain ⟨hm, hrv⟩ := locateStep_return hf
    refine ⟨(b : Int), (a : Int), by rw [hr, hrv], by omega, hm, ?_⟩
    intro x y hy0 hy hx0 hx hmatch
    by_contra hlt
    have hearly : y.toNat < a ∨ (y.toNat = a ∧ x.toNat < b) := by omega
    have hthrough := locateStep_through (hprev y.toNat x.toNat (by omega) (by omega) hearly)
    rw [Int.toNat_of_nonneg hx0, Int.toNat_of_nonneg hy0, hmatch] at hthrough
    cases hthrough
  · right
    refine ⟨by rw [hr], ?_⟩
    intro x y hy0 hy hx0 hx hmatch
    have hthrough := locateStep_through (hall y.toNat x.toNat (by omega) (by omega))
    rw [Int.toNat_of_nonneg hx0, Int.toNat_of_nonneg hy0, hmatch] at hthrough
    cases hthrough

/-- An instance of the search: the 2×2 image searched in the 3×3 image. -/
theorem ImageLocateSubImage_spec_witness :
    (∃ x0 y0 : Int, ImageLocateSubImage img3x3 7 7 img2x2 = some (1, x0, y0) ∧
        (0 ≤ y0 ∧ y0 ≤ img3x3.height - img2x2.height ∧ 0 ≤ x0 ∧
          x0 ≤ img3x3.width - img2x2.width) ∧
        ImageMatchSubImage img3x3 x0 y0 img2x2 = some 1 ∧
        ∀ x y : Int, 0 ≤ y → y ≤ img3x3.height - img2x2.height → 0 ≤ x →
          x ≤ img3x3.width - img2x2.width → ImageMatchSubImage img3x3 x y img2x2 = some 1 →
          (y0 < y ∨ (y0 = y ∧ x0 ≤ x))) ∨
    (ImageLocateSubImage img3x3 7 7 img2x2 = some (0, 7, 7) ∧
        ∀ x y : Int, 0 ≤ y → y ≤ img3x3.height - img2x2.height → 0 ≤ x →
          x ≤ img3x3.width - img2x2.width → ImageMatchSubImage img3x3 x y img2x2 ≠ some 1) :=
  ImageLocateSubImage_spec img3x3 img2x2 7 7 (by decide) (by decide) (by decide)

/-- C2 fails on the code: searching the empty image for the empty image, the loop of
`ImageLocateSubImage` visits `(0,0)` and calls `ImageMatchSubImage` there, outside the
precondition `ImageValidPos(img1, 0, 0)` that `ImageMatchSubImage` asserts, so the call
aborts and returns neither 1 nor 0; the same empty pattern searched in the non-empty 3×3
image is found at `(0,0)`. -/
theorem ImageLocateSubImage_empty_aborts :
    img0x0.wf ∧ ImageLocateSubImage img0x0 7 7 img0x0 = none ∧
      ImageMatchSubImage img0x0 0 0 img0x0 = none ∧
      ImageValidPos img0x0 0 0 = false ∧
      ImageLocateSubImage img3x3 7 7 img0x0 = some (1, 0, 0) := by
  decide

/-! ### Blur -/

/-- A loop that adds `g i` to its state at iteration `i` computes a sum. -/
theorem forRange_sum {σ : Type} [AddCommMonoid σ] (body : Nat → σ → Option σ)
    (g : Nat → σ) :
    ∀ (k lo : Nat) (s : σ),
      (∀ i s, lo ≤ i → i < lo + k → body i s = some (s + g i)) →
      forRange body lo k s = some (s + ∑ i in Finset.range k, g (lo + i)) := by
  intro k
  induction k with
  | zero =>
    intro lo s _
    simp [forRange]
  | succ k ih =>
    intro lo s hb
    have h1 := hb lo s (le_refl _) (by omega)
    have h2 := ih (lo + 1) (s + g lo) (fun i s hi hlt => hb i s (by omega) (by omega))
    simp only [forRange, h1, h2]
    rw [Finset.sum_range_succ']
    have hshift : ∀ i, g (lo + 1 + i) = g (lo + (i + 1)) := by
      intro i
      congr 1
      omega
    simp only [hshift, Nat.add_zero]
    rw [add_assoc, add_comm (g lo)]

theorem blurWindow_eq (img : Image) (dx dy x y : Int) (hlen : img.lenOK) :
    blurWindow img dx dy x y =
      some (∑ j in Finset.range (dy - -dy + 1).toNat, ∑ i in Finset.range (dx - -dx + 1).toNat,
        contrib img (x + (-dx + i)) (y + (-dy + j))) := by
  unfold blurWindow
  rw [forRange_sum _ (fun j => ∑ i in Finset.range (dx - -dx + 1).toNat,
    contrib img (x + (-dx + i)) (y + (-dy + j)))]
  · simp
  · intro j s _ _
    rw [forRange_sum _ (fun i => contrib img (x + (-dx + i)) (y + (-dy + j)))]
    · simp
    · intro i sc _ _
      unfold contrib
      by_cases hv : ImageValidPos img (x + (-dx + i)) (y + (-dy + j)) = true
      · obtain ⟨v, hget, _⟩ := getPixel_isSome hlen hv
        simp only [hv, if_true, hget, levelAt, Option.getD_some]
        rfl
      · simp only [hv]
        simp

theorem contrib_invalid {img : Image} {nx ny : Int} (h : ¬ ImageValidPos img nx ny = true) :
    contrib img nx ny = 0 := by
  simp [contrib, h]

/-- The window sums of `ImageBlur`, indexed by the offsets `(j,i)`, are the sums over the
valid positions that lie in the window. -/
theorem window_reindex (img : Image) (x y dx dy : Int) :
    (∑ j in Finset.range (dy - -dy + 1).toNat, ∑ i in Finset.range (dx - -dx + 1).toNat,
        contrib img (x + (-dx + i)) (y + (-dy + j))) =
      ∑ ny in Finset.range img.height.toNat, ∑ nx in Finset.range img.width.toNat,
        if |(nx : Int) - x| ≤ dx ∧ |(ny : Int) - y| ≤ dy then contrib img nx ny else 0 := by
  rw [← Finset.sum_product', ← Finset.sum_product']
  rw [← Finset.sum_filter]
  rw [← Finset.sum_filter_of_ne (p := fun p : Nat × Nat =>
    ImageValidPos img (x + (-dx + p.2)) (y + (-dy + p.1)) = true)]
  · refine Finset.sum_nbij'
      (fun p => ((y + (-dy + (p.1 : Int))).toNat, (x + (-dx + (p.2 : Int))).toNat))
      (fun q => (((q.1 : Int) - y + dy).toNat, ((q.2 : Int) - x + dx).toNat)) ?_ ?_ ?_ ?_ ?_
    · intro p hp
      simp only [Finset.mem_filter, Finset.mem_product, Finset.mem_range, validPos_iff,
        abs_le] at hp ⊢
      omega
    · intro q hq
      simp only [Finset.mem_filter, Finset.mem_product, Finset.mem_range, validPos_iff,
        abs_le] at hq ⊢
      omega
    · intro p hp
      simp only [Finset.mem_filter, Finset.mem_product, Finset.mem_range, validPos_iff] at hp
      apply Prod.ext <;> simp only <;> omega
    · intro q hq
      simp only [Finset.mem_filter, Finset.mem_product, Finset.mem_range, abs_le] at hq
      apply Prod.ext <;> simp only <;> omega
    · intro p hp
      simp only [Finset.mem_filter, Finset.mem_product, Finset.mem_range, validPos_iff] at hp
      have e1 : (((x + (-dx + (p.2 : Int))).toNat : Nat) : Int) = x + (-dx + (p.2 : Int)) := by
        omega
      have e2 : (((y + (-dy + (p.1 : Int))).toNat : Nat) : Int) = y + (-dy + (p.1 : Int)) := by
        omega
      simp only [e1, e2]
  · intro p _ hne
    by_contra hv
    exact hne (contrib_invalid hv)

theorem list_sum_range {σ : Type} [AddCommMonoid σ] (f : Nat → σ) (n : Nat) :
    ((List.range n).map f).sum = ∑ i in Finset.range n, f i := by
  induction n with
  | zero => simp
  | succ n ih => simp [List.range_succ, Finset.sum_range_succ, ih]

theorem list_sum_flatMap {α β σ : Type} [AddCommMonoid σ] (l : List α) (f : α → List β)
    (g : β → σ) :
    ((l.flatMap f).map g).sum = (l.map (fun a => ((f a).map g).sum)).sum := by
  induction l with
  | nil => simp
  | cons a l ih => simp [List.flatMap_cons, ih]

/-- Sum and count of the selected samples of a list of positions, as one sum of pairs. -/
theorem list_box_sum {α : Type} (l : List α) (P : α → Bool) (q : α → Option Nat)
    (c : α → Int × Int) (hc : ∀ a ∈ l, ∃ v, q a = some v ∧ c a = ((v : Int), 1)) :
    ((((l.filter P).filterMap q).sum : Int), (((l.filter P).filterMap q).length : Int)) =
      (l.map (fun a => if P a = true then c a else 0)).sum := by
  induction l with
  | nil => simp
  | cons a l ih =>
    have ih' := ih (fun b hb => hc b (List.mem_cons_of_mem _ hb))
    obtain ⟨v, hq, hcv⟩ := hc a (List.mem_cons_self _ _)
    by_cases hP : P a = true
    · simp only [List.filter_cons, hP, if_true, List.filterMap_cons, hq, List.sum_cons,
        List.length_cons, List.map_cons, ← ih', hcv]
      simp only [Prod.mk_add_mk, Nat.cast_add, Nat.cast_one]
      rw [add_comm (1 : Int)]
    · simp only [List.filter_cons, hP, List.map_cons, List.sum_cons, ← ih']
      simp

theorem mem_validPositions {img : Image} {p : Int × Int} (h : p ∈ validPositions img) :
    ImageValidPos img p.1 p.2 = true := by
  simp only [validPositions, List.mem_flatMap, List.mem_map, List.mem_range] at h
  obtain ⟨ny, hny, nx, hnx, rfl⟩ := h
  rw [validPos_iff]
  simp only
  omega

/-- The sum `S` and the count `N` of the specification are the window sums of the code. -/
theorem boxSamples_eq (img : Image) (x y dx dy : Int) (hlen : img.lenOK) :
    (((boxSamples img x y dx dy).sum : Int), ((boxSamples img x y dx dy).length : Int)) =
      ∑ j in Finset.range (dy - -dy + 1).toNat, ∑ i in Finset.range (dx - -dx + 1).toNat,
        contrib img (x + (-dx + i)) (y + (-dy + j)) := by
  rw [window_reindex]
  unfold boxSamples
  rw [list_box_sum (validPositions img) _ _ (fun p => contrib img p.1 p.2)]
  · unfold validPositions
    rw [list_sum_flatMap, ← list_sum_range]
    congr 1
    apply List.map_congr_left
    intro ny _
    rw [List.map_map, ← list_sum_range]
    congr 1
    apply List.map_congr_left
    intro nx _
    simp
  · intro p hp
    have hv := mem_validPositions hp
    obtain ⟨v, hget, _⟩ := getPixel_isSome hlen hv
    exact ⟨v, hget, by simp [contrib, hv, levelAt, hget]⟩

theorem getPixel_mem {img : Image} {x y : Int} {v : Nat}
    (h : ImageGetPixel img x y = some v) : v ∈ img.pixel := by
  unfold ImageGetPixel at h
  split at h
  · split at h
    · cases h
    · exact List.getElem?_mem h
  · cases h

theorem boxSamples_lt (img : Image) (x y dx dy : Int) (hpix : ∀ p ∈ img.pixel, p < 256) :
    ∀ v ∈ boxSamples img x y dx dy, v ≤ 255 := by
  intro v hv
  simp only [boxSamples, List.mem_filterMap] at hv
  obtain ⟨p, _, hget⟩ := hv
  have := hpix v (getPixel_mem hget)
  omega

theorem boxSamples_pos (img : Image) (x y dx dy : Int) (hlen : img.lenOK)
    (hdx : 0 ≤ dx) (hdy : 0 ≤ dy) (hv : ImageValidPos img x y = true) :
    0 < (boxSamples img x y dx dy).length := by
  obtain ⟨v, hget, _⟩ := getPixel_isSome hlen hv
  obtain ⟨h1, h2, h3, h4⟩ := (validPos_iff img x y).1 hv
  apply List.length_pos_of_mem (a := v)
  simp only [boxSamples, List.mem_filterMap, List.mem_filter, validPositions, List.mem_flatMap,
    List.mem_map, List.mem_range]
  refine ⟨(x, y), ⟨⟨y.toNat, by omega, x.toNat, by omega, ?_⟩, ?_⟩, hget⟩
  · rw [Int.toNat_of_nonneg h1, Int.toNat_of_nonneg h3]
  · simp [hdx, hdy]

theorem boxMean_le (img : Image) (x y dx dy : Int) (hpix : ∀ p ∈ img.pixel, p < 256) :
    boxMean img x y dx dy ≤ 255 := by
  unfold boxMean
  apply Nat.div_le_of_le_mul
  have := List.sum_le_card_nsmul (boxSamples img x y dx dy) 255 (boxSamples_lt img x y dx dy hpix)
  simpa using this

theorem blurPixel_eq (img : Image) (dx dy : Int) (hwf : img.wf) (hdx : 0 ≤ dx) (hdy : 0 ≤ dy)
    (a b : Nat) (ha : a < img.height.toNat) (hb : b < img.width.toNat) (t : Image) :
    blurPixel img dx dy a b t = ImageSetPixel t b a (boxMean img b a dx dy) := by
  obtain ⟨_, _, _, _, hlen, hpix⟩ := hwf
  have hv : ImageValidPos img b a = true := by
    rw [validPos_iff]; omega
  have hpos := boxSamples_pos img b a dx dy hlen hdx hdy hv
  have hle := boxMean_le img b a dx dy hpix
  unfold blurPixel
  rw [blurWindow_eq img dx dy b a hlen, ← boxSamples_eq img b a dx dy hlen]
  simp only
  have hcount : ((boxSamples img b a dx dy).length : Int) > 0 := by omega
  rw [if_pos hcount]
  congr 1
  rw [Int.tdiv_eq_ediv (by omega) (by omega)]
  unfold boxMean at hle ⊢
  have hcast : ((boxSamples img b a dx dy).sum : Int) / ((boxSamples img b a dx dy).length : Int)
      = (((boxSamples img b a dx dy).sum / (boxSamples img b a dx dy).length : Nat) : Int) := by
    push_cast
    rfl
  rw [hcast]
  generalize (boxSamples img b a dx dy).sum / (boxSamples img b a dx dy).length = q at hle ⊢
  omega

/-- C3: for `dx ≥ 0` and `dy ≥ 0`, `ImageBlur` succeeds and keeps width, height and
maxval; afterwards the level at every valid `(x,y)` is `floor(S / N)`, where `S` is the
sum and `N ≥ 1` the count of the levels that the image had before the call at the valid
positions `(nx,ny)` with `|nx - x| ≤ dx` and `|ny - y| ≤ dy`. -/
theorem ImageBlur_spec (mem : Nat → Nat) (img : Image) (dx dy : Int) (hwf : img.wf)
    (hdx : 0 ≤ dx) (hdy : 0 ≤ dy) :
    ∃ r, ImageBlur mem img dx dy = some r ∧ r.width = img.width ∧ r.height = img.height ∧
      r.maxval = img.maxval ∧
      ∀ x y : Int, ImageValidPos img x y = true →
        0 < (boxSamples img x y dx dy).length ∧
        ImageGetPixel r x y =
          some ((boxSamples img x y dx dy).sum / (boxSamples img x y dx dy).length) := by
  have hwf' := hwf
  obtain ⟨h0w, h0h, hm0, hm, hlen, hpix⟩ := hwf
  obtain ⟨t0, hc, htw, hth, htm, htl⟩ := ImageCreate_spec mem h0w h0h hm0 hm
  obtain ⟨t, hrun1, hsh1, hl1, hnew1, _⟩ := fill_raster
    (fun a b s => blurPixel img dx dy a b s)
    img.height.toNat img.width.toNat (fun _ b => (b : Int)) (fun a _ => (a : Int))
    (fun a b => boxMean img b a dx dy) t0 htl
    (fun a b ha hb => by rw [validPos_iff, htw, hth]; dsimp only; omega)
    (fun a b a' b' _ _ _ _ e1 e2 => by
      simp only at e1 e2
      omega)
    (fun a b s ha hb _ _ _ => blurPixel_eq img dx dy hwf' hdx hdy a b ha hb s)
  obtain ⟨r, hrun2, hsh2, _, hnew2, _⟩ := fill_raster
    (fun a b s => copyPixel t a b s)
    img.height.toNat img.width.toNat (fun _ b => (b : Int)) (fun a _ => (a : Int))
    (fun a b => boxMean img b a dx dy) img hlen
    (fun a b ha hb => by rw [validPos_iff]; dsimp only; omega)
    (fun a b a' b' _ _ _ _ e1 e2 => by
      simp only at e1 e2
      omega)
    (fun a b s ha hb _ _ _ => by
      have hg := hnew1 a b ha hb
      simp only at hg
      show copyPixel t a b s = ImageSetPixel s b a (boxMean img b a dx dy)
      unfold copyPixel
      rw [hg, Nat.mod_eq_of_lt (by have := boxMean_le img b a dx dy hpix; omega)])
  refine ⟨r, ?_, hsh2.1, hsh2.2.1, hsh2.2.2, ?_⟩
  · unfold ImageBlur
    simp only
    rw [if_pos ⟨hdx, hdy⟩, hc]
    simp only
    rw [hrun1]
    exact hrun2
  · intro x y hv
    obtain ⟨h1, h2, h3, h4⟩ := (validPos_iff img x y).1 hv
    refine ⟨boxSamples_pos img x y dx dy hlen hdx hdy hv, ?_⟩
    have hg := hnew2 y.toNat x.toNat (by omega) (by omega)
    simp only [Int.toNat_of_nonneg h1, Int.toNat_of_nonneg h3] at hg
    rw [hg, Nat.mod_eq_of_lt (by have := boxMean_le img x y dx dy hpix; omega)]
    rfl

/-- An instance of C3: the 3×3 image blurred with `dx = dy = 1`. -/
theorem ImageBlur_spec_witness :
    ∃ r, ImageBlur zeroMem img3x3 1 1 = some r ∧ r.width = img3x3.width ∧
      r.height = img3x3.height ∧ r.maxval = img3x3.maxval ∧
      ∀ x y : Int, ImageValidPos img3x3 x y = true →
        0 < (boxSamples img3x3 x y 1 1).length ∧
        ImageGetPixel r x y =
          some ((boxSamples img3x3 x y 1 1).sum / (boxSamples img3x3 x y 1 1).length) :=
  ImageBlur_spec zeroMem img3x3 1 1 (by decide) (by decide) (by decide)

/-! ### The codec -/

theorem isdigit_facts {d : Nat} (h : isdigit d = true) :
    isspace d = false ∧ d ≠ 35 ∧ d ≠ 45 ∧ d ≠ 43 := by
  simp only [isdigit, Bool.and_eq_true, decide_eq_true_eq] at h
  refine ⟨?_, by omega, by omega, by omega⟩
  simp only [isspace, Bool.or_eq_false_iff, beq_eq_false_iff_ne, ne_eq, Bool.and_eq_false_imp,
    decide_eq_true_eq, decide_eq_false_iff_not]
  omega

theorem printDigits_head (fuel n : Nat) :
    ∃ d ds, printDigits (fuel + 1) n = d :: ds ∧ isdigit d = true := by
  induction fuel generalizing n with
  | zero =>
    unfold printDigits
    split
    · exact ⟨48 + n, [], rfl, by simp [isdigit]; omega⟩
    · exact ⟨48 + n % 10, [], by simp [printDigits], by simp [isdigit]; omega⟩
  | succ fuel ih =>
    unfold printDigits
    split
    · exact ⟨48 + n, [], rfl, by simp [isdigit]; omega⟩
    · obtain ⟨d, ds, hd, hdig⟩ := ih (n / 10)
      exact ⟨d, ds ++ [48 + n % 10], by rw [hd]; rfl, hdig⟩

theorem printNat_head (n : Nat) : ∃ d ds, printNat n = d :: ds ∧ isdigit d = true :=
  printDigits_head n n

theorem scanDigits_stop (acc c : Nat) (rest : List Nat) (hc : isdigit c = false) :
    scanDigits acc (c :: rest) = (acc, c :: rest) := by
  simp [scanDigits, hc]

/-- Reading back the digits written for `n` yields `n`. -/
theorem scanDigits_print (fuel : Nat) :
    ∀ (n : Nat) (rest : List Nat), n < fuel →
      scanDigits 0 (printDigits fuel n ++ rest) = scanDigits n rest := by
  induction fuel with
  | zero => intro n rest h; omega
  | succ fuel ih =>
    intro n rest hn
    unfold printDigits
    split
    · rename_i hlt
      have hd : isdigit (48 + n) = true := by simp [isdigit]; omega
      simp [scanDigits, hd]
    · rename_i hge
      rw [List.append_assoc, ih (n / 10) _ (by omega)]
      have hd : isdigit (48 + n % 10) = true := by simp [isdigit]; omega
      simp only [List.singleton_append, scanDigits, hd, if_true]
      congr 1
      omega

theorem scanInt_printNat (n c : Nat) (rest : List Nat) (hc : isdigit c = false) :
    scanInt (printNat n ++ c :: rest) = some ((n : Int), c :: rest) := by
  have hscan : scanDigits 0 (printNat n ++ c :: rest) = (n, c :: rest) := by
    unfold printNat
    rw [scanDigits_print (n + 1) n _ (by omega), scanDigits_stop _ _ _ hc]
  obtain ⟨d, ds, hd, hdig⟩ := printNat_head n
  obtain ⟨h1, _, h3, h4⟩ := isdigit_facts hdig
  rw [hd] at hscan ⊢
  simp only [List.cons_append] at hscan ⊢
  unfold scanInt
  simp only [skipSpace, h1, Bool.false_eq_true, if_false, h3, h4, hdig, if_true, hscan]

theorem skipSpace_printNat (n : Nat) (rest : List Nat) :
    skipSpace (printNat n ++ rest) = printNat n ++ rest := by
  obtain ⟨d, ds, hd, hdig⟩ := printNat_head n
  rw [hd]
  simp [skipSpace, (isdigit_facts hdig).1]

theorem skipComments_printNat (n : Nat) (rest : List Nat) :
    skipComments (printNat n ++ rest) = printNat n ++ rest := by
  obtain ⟨d, ds, hd, hdig⟩ := printNat_head n
  rw [hd]
  simp [skipComments, skipCommentsLoop, (isdigit_facts hdig).2.1]

/-- One header field: after a white-space byte, the written number is read back and the
input is left at the byte that follows it. -/
theorem scan_field (s n c : Nat) (rest : List Nat) (hs : isspace s = true)
    (hc : isdigit c = false) :
    scanInt (skipComments (skipSpace (s :: (printNat n ++ c :: rest)))) =
      some ((n : Int), c :: rest) := by
  have h1 : skipSpace (s :: (printNat n ++ c :: rest)) = printNat n ++ c :: rest := by
    rw [skipSpace, if_pos hs, skipSpace_printNat]
  rw [h1, skipComments_printNat, scanInt_printNat n c rest hc]

/-- C1: the bytes written by `ImageSave` are accepted by `ImageLoad`, which returns an
image with the same width, height and maxval and the same level at every position (the
same image, whatever the levels are). -/
theorem ImageLoad_ImageSave (mem : Nat → Nat) (img : Image) (hwf : img.wf) :
    ∃ r, ImageLoad mem (ImageSave img) = some r ∧ r.width = img.width ∧
      r.height = img.height ∧ r.maxval = img.maxval ∧
      (∀ x y : Int, ImageGetPixel r x y = ImageGetPixel img x y) ∧ r = img := by
  obtain ⟨h0w, h0h, hm0, hm, hlen, _⟩ := hwf
  have hload : ImageLoad mem (ImageSave img) = some img := by
    obtain ⟨r0, hc, hrw, hrh, hrm, hrl⟩ := ImageCreate_spec mem h0w h0h hm0 hm
    have hw : printInt img.width = printNat img.width.toNat := by
      simp [printInt, not_lt.2 h0w]
    have hh : printInt img.height = printNat img.height.toNat := by
      simp [printInt, not_lt.2 h0h]
    have htake : List.take (img.width * img.height).toNat img.pixel = img.pixel := by
      rw [← hlen]; exact List.take_length _
    have hmv : (((img.maxval % 256).toNat : Nat) : Int) = img.maxval := by omega
    unfold ImageSave
    simp only [hw, hh, htake, List.append_assoc, List.cons_append, List.nil_append]
    unfold ImageLoad
    simp only [if_true]
    rw [scan_field 10 _ 32 _ (by decide) (by decide)]
    simp only [Int.toNat_of_nonneg h0w, ge_iff_le, h0w, if_true]
    rw [scan_field 32 _ 10 _ (by decide) (by decide)]
    simp only [Int.toNat_of_nonneg h0h, ge_iff_le, h0h, if_true]
    rw [scan_field 10 _ 10 _ (by decide) (by decide)]
    have hmax : (0 : Int) < ((img.maxval % 256).toNat : Nat) ∧
        (((img.maxval % 256).toNat : Nat) : Int) ≤ (PixMax : Int) := by
      rw [hmv]; exact ⟨hm0, by simpa [PixMax] using hm⟩
    simp only [hmax, and_self, if_true]
    have hsp : isspace 10 = true := by decide
    simp only [hsp, if_true, hmv, hc]
    rw [← hlen, List.take_length]
    simp only [if_true]
    have hdrop : List.drop img.pixel.length r0.pixel = [] := by
      apply List.drop_eq_nil_of_le
      rw [hrl, hrw, hrh, hlen]
    rw [hdrop, List.append_nil]
    cases img
    simp only at hrw hrh hrm
    cases r0
    simp only at hrw hrh hrm
    simp [hrw, hrh, hrm]
  exact ⟨img, hload, rfl, rfl, rfl, fun _ _ => rfl, rfl⟩

/-- An instance of C1: the 3×3 image. -/
theorem ImageLoad_ImageSave_witness :
    ∃ r, ImageLoad zeroMem (ImageSave img3x3) = some r ∧ r.width = img3x3.width ∧
      r.height = img3x3.height ∧ r.maxval = img3x3.maxval ∧
      (∀ x y : Int, ImageGetPixel r x y = ImageGetPixel img3x3 x y) ∧ r = img3x3 :=
  ImageLoad_ImageSave zeroMem img3x3 (by decide)

/-! ### From indices back to positions -/

/-- Every index of the pixel array is the index of a valid position. -/
theorem coords_of_index {img : Image} (hw : 0 ≤ img.width) (hlen : img.lenOK) {i : Nat}
    (hi : i < img.pixel.length) :
    ∃ x y : Int, ImageValidPos img x y = true ∧ (y * img.width + x).toNat = i := by
  rw [hlen] at hi
  have hpos : 0 < img.width * img.height := by omega
  have hW : 0 < img.width := by
    rcases lt_or_eq_of_le hw with h | h
    · exact h
    · rw [← h] at hpos; simp at hpos
  have hH : 0 < img.height := by
    by_contra hc
    have : img.width * img.height ≤ 0 :=
      mul_nonpos_of_nonneg_of_nonpos hw (by omega)
    omega
  have hiI : (i : Int) < img.height * img.width := by
    rw [mul_comm]; omega
  refine ⟨(i : Int) % img.width, (i : Int) / img.width, ?_, ?_⟩
  · rw [validPos_iff]
    exact ⟨Int.emod_nonneg _ (by omega), Int.emod_lt_of_pos _ hW,
      Int.ediv_nonneg (by omega) hw, Int.ediv_lt_of_lt_mul hW hiI⟩
  · have := Int.ediv_add_emod (i : Int) img.width
    have hcomm : (i : Int) / img.width * img.width = img.width * ((i : Int) / img.width) :=
      mul_comm _ _
    omega

/-- Every entry of the pixel array is the level of a valid position. -/
theorem mem_pixel_get {img : Image} (hw : 0 ≤ img.width) (hlen : img.lenOK) {p : Nat}
    (hp : p ∈ img.pixel) : ∃ x y : Int, ImageGetPixel img x y = some p := by
  obtain ⟨i, hi, hget⟩ := List.mem_iff_getElem.1 hp
  obtain ⟨x, y, hv, hidx⟩ := coords_of_index hw hlen hi
  refine ⟨x, y, ?_⟩
  rw [getPixel_eq hv, hidx, List.getElem?_eq_getElem hi, hget]

/-- Two images of the same shape with the same level at every position are equal. -/
theorem image_ext {a b : Image} (hsh : a.sameShape b) (hw : 0 ≤ a.width) (ha : a.lenOK)
    (hb : b.lenOK) (hget : ∀ x y : Int, ImageGetPixel a x y = ImageGetPixel b x y) : a = b := by
  obtain ⟨e1, e2, e3⟩ := hsh
  have hlen : a.pixel.length = b.pixel.length := by
    rw [ha, hb, e1, e2]
  have hpix : a.pixel = b.pixel := by
    apply List.ext_getElem? 
    intro i
    by_cases hi : i < a.pixel.length
    · obtain ⟨x, y, hv, hidx⟩ := coords_of_index hw ha hi
      have hvb : ImageValidPos b x y = true := by
        rw [← validPos_congr ⟨e1, e2, e3⟩]; exact hv
      have h := hget x y
      rw [getPixel_eq hv, getPixel_eq hvb, ← e1, hidx] at h
      exact h
    · rw [List.getElem?_eq_none (by omega), List.getElem?_eq_none (by omega)]
  cases a
  cases b
  simp only at e1 e2 e3 hpix
  simp [e1, e2, e3, hpix]

/-! ### Comparing a subimage -/

theorem matchPixel_eq {img1 img2 : Image} {x y : Int} {a b v1 v2 : Nat}
    (h2 : ImageGetPixel img2 b a = some v2)
    (h1 : ImageGetPixel img1 (x + b) (y + a) = some v1) :
    matchPixel img1 x y img2 a b = if v1 ≠ v2 then some (some 0) else some none := by
  unfold matchPixel
  rw [h2, h1]

/-- What `ImageMatchSubImage` returns when the rectangle is accepted by `ImageValidRect`:
1 and all levels agree, or 0 and some pair of levels differs. -/
theorem match_run {img1 img2 : Image} {x y : Int} (h1 : img1.lenOK) (h2 : img2.lenOK)
    (hr : ImageValidRect img1 x y img2.width img2.height = true) :
    (ImageMatchSubImage img1 x y img2 = some 1 ∧
      ∀ dx dy : Int, 0 ≤ dx → dx < img2.width → 0 ≤ dy → dy < img2.height →
        ImageGetPixel img1 (x + dx) (y + dy) = ImageGetPixel img2 dx dy) ∨
    (ImageMatchSubImage img1 x y img2 = some 0 ∧
      ∃ dx dy : Int, 0 ≤ dx ∧ dx < img2.width ∧ 0 ≤ dy ∧ dy < img2.height ∧
        ImageGetPixel img1 (x + dx) (y + dy) ≠ ImageGetPixel img2 dx dy) := by
  have hcor := (validRect_corners img1 x y img2.width img2.height).1 hr
  have hv : ImageValidPos img1 x y = true := (validPos_iff _ _ _).2 hcor.1
  have hgets : ∀ a b : Nat, a < img2.height.toNat → b < img2.width.toNat →
      ∃ v1 v2, ImageGetPixel img2 b a = some v2 ∧
        ImageGetPixel img1 (x + b) (y + a) = some v1 := by
    intro a b ha hb
    have hv2 : ImageValidPos img2 b a = true := by
      rw [validPos_iff]; omega
    have hv1 : ImageValidPos img1 (x + b) (y + a) = true := by
      rw [validPos_iff]; omega
    obtain ⟨v2, hg2, _⟩ := getPixel_isSome h2 hv2
    obtain ⟨v1, hg1, _⟩ := getPixel_isSome h1 hv1
    exact ⟨v1, v2, hg2, hg1⟩
  unfold ImageMatchSubImage
  rw [if_pos hv]
  rcases forReturn_nested (matchPixel img1 x y img2) img2.height.toNat img2.width.toNat with
    ⟨_, a, b, ha, hb, hf, _⟩ | ⟨r, hrun, a, b, ha, hb, hf, _⟩ | ⟨hrun, hall⟩
  · exfalso
    obtain ⟨v1, v2, hg2, hg1⟩ := hgets a b ha hb
    rw [matchPixel_eq hg2 hg1] at hf
    split at hf <;> cases hf
  · right
    obtain ⟨v1, v2, hg2, hg1⟩ := hgets a b ha hb
    rw [matchPixel_eq hg2 hg1] at hf
    split at hf
    · rename_i hne
      simp only [Option.some.injEq] at hf
      subst hf
      refine ⟨by rw [hrun], (b : Int), (a : Int), by omega, by omega, by omega, by omega, ?_⟩
      rw [hg1, hg2]
      intro he
      exact hne (Option.some.inj he)
    · cases hf
  · left
    refine ⟨by rw [hrun], ?_⟩
    intro dx dy hdx0 hdx hdy0 hdy
    obtain ⟨v1, v2, hg2, hg1⟩ := hgets dy.toNat dx.toNat (by omega) (by omega)
    have hf := hall dy.toNat dx.toNat (by omega) (by omega)
    rw [matchPixel_eq hg2 hg1] at hf
    rw [Int.toNat_of_nonneg hdx0, Int.toNat_of_nonneg hdy0] at hg1 hg2
    rw [hg1, hg2]
    split at hf
    · cases hf
    · rename_i heq
      simp only [ne_eq, Decidable.not_not] at heq
      rw [heq]

/-- C11: when `ImageValidRect img1 x y img2.width img2.height` holds,
`ImageMatchSubImage` returns 1 exactly when the level of `img1` at `(x+dx, y+dy)` equals
the level of `img2` at `(dx,dy)` for every position `(dx,dy)` of `img2`, and it returns 0
exactly when it does not.  (Both images are only read: the call produces nothing but the
returned value.) -/
theorem ImageMatchSubImage_spec (img1 img2 : Image) (x y : Int) (h1 : img1.wf) (h2 : img2.wf)
    (hr : ImageValidRect img1 x y img2.width img2.height = true) :
    (ImageMatchSubImage img1 x y img2 = some 1 ↔
      ∀ dx dy : Int, 0 ≤ dx → dx < img2.width → 0 ≤ dy → dy < img2.height →
        ImageGetPixel img1 (x + dx) (y + dy) = ImageGetPixel img2 dx dy) ∧
    (ImageMatchSubImage img1 x y img2 = some 0 ↔
      ¬ ∀ dx dy : Int, 0 ≤ dx → dx < img2.width → 0 ≤ dy → dy < img2.height →
        ImageGetPixel img1 (x + dx) (y + dy) = ImageGetPixel img2 dx dy) := by
  rcases match_run h1.2.2.2.2.1 h2.2.2.2.2.1 hr with ⟨hm, hall⟩ | ⟨hm, dx, dy, a1, a2, a3, a4, hne⟩
  · refine ⟨⟨fun _ => hall, fun _ => hm⟩, ⟨fun h0 => ?_, fun hn => absurd hall hn⟩⟩
    rw [hm] at h0
    cases h0
  · have hnot : ¬ ∀ dx dy : Int, 0 ≤ dx → dx < img2.width → 0 ≤ dy → dy < img2.height →
        ImageGetPixel img1 (x + dx) (y + dy) = ImageGetPixel img2 dx dy :=
      fun hall => hne (hall dx dy a1 a2 a3 a4)
    refine ⟨⟨fun h1' => ?_, fun hall => absurd hall hnot⟩, ⟨fun _ => hnot, fun _ => hm⟩⟩
    rw [hm] at h1'
    cases h1'

/-- An instance of C11: the block 5, 6 / 8, 9 compared with the 3×3 image at `(1,1)`. -/
theorem ImageMatchSubImage_spec_witness :
    (ImageMatchSubImage img3x3 1 1 img5689 = some 1 ↔
      ∀ dx dy : Int, 0 ≤ dx → dx < img5689.width → 0 ≤ dy → dy < img5689.height →
        ImageGetPixel img3x3 (1 + dx) (1 + dy) = ImageGetPixel img5689 dx dy) ∧
    (ImageMatchSubImage img3x3 1 1 img5689 = some 0 ↔
      ¬ ∀ dx dy : Int, 0 ≤ dx → dx < img5689.width → 0 ≤ dy → dy < img5689.height →
        ImageGetPixel img3x3 (1 + dx) (1 + dy) = ImageGetPixel img5689 dx dy) :=
  ImageMatchSubImage_spec img3x3 img5689 1 1 (by decide) (by decide) (by decide)

/-! ### Overwriting a rectangle: paste and blend -/

theorem validRect_congr {a b : Image} (h : a.sameShape b) (x y w h' : Int) :
    ImageValidRect a x y w h' = ImageValidRect b x y w h' := by
  unfold ImageValidRect
  rw [validPos_congr h, validPos_congr h]

/-- Two nested loops that store the level of `img2` at `(b,a)` into `(x+b, y+a)`. -/
theorem overwrite_rect (body : Nat → Nat → Image → Option Image) (img1 img2 : Image)
    (x y : Int) (h1 : img1.lenOK) (h2 : img2.lenOK)
    (hr : ImageValidRect img1 x y img2.width img2.height = true)
    (hbody : ∀ a b s v, a < img2.height.toNat → b < img2.width.toNat → s.sameShape img1 →
      s.lenOK → ImageGetPixel img2 b a = some v →
      body a b s = ImageSetPixel s (x + b) (y + a) v) :
    ∃ r, forRange (fun a s => forRange (fun b t => body a b t) 0 img2.width.toNat s)
        0 img2.height.toNat img1 = some r ∧ r.sameShape img1 ∧ r.lenOK ∧
      (∀ dx dy : Int, 0 ≤ dx → dx < img2.width → 0 ≤ dy → dy < img2.height →
        ∃ v, ImageGetPixel img2 dx dy = some v ∧
          ImageGetPixel r (x + dx) (y + dy) = some (v % 256)) ∧
      (∀ X Y : Int, ¬ (x ≤ X ∧ X < x + img2.width ∧ y ≤ Y ∧ Y < y + img2.height) →
        ImageGetPixel r X Y = ImageGetPixel img1 X Y) := by
  have hcor := (validRect_corners img1 x y img2.width img2.height).1 hr
  have hsrc : ∀ dx dy : Int, 0 ≤ dx → dx < img2.width → 0 ≤ dy → dy < img2.height →
      ImageValidPos img2 dx dy = true := by
    intro dx dy a1 a2 a3 a4
    rw [validPos_iff]; omega
  obtain ⟨r, hrun, hsh, hl, hnew, hold⟩ := fill_raster body
    img2.height.toNat img2.width.toNat (fun _ b => x + (b : Int)) (fun a _ => y + (a : Int))
    (fun a b => levelAt img2 b a) img1 h1
    (fun a b ha hb => by rw [validPos_iff]; dsimp only; omega)
    (fun a b a' b' _ _ _ _ e1 e2 => by
      simp only at e1 e2
      omega)
    (fun a b s ha hb hsh hl _ => by
      obtain ⟨v, hv, _⟩ := getPixel_isSome h2
        (hsrc b a (by omega) (by omega) (by omega) (by omega))
      rw [hbody a b s v ha hb hsh hl hv]
      simp [levelAt, hv])
  refine ⟨r, hrun, hsh, hl, ?_, ?_⟩
  · intro dx dy a1 a2 a3 a4
    obtain ⟨v, hget, _⟩ := getPixel_isSome h2 (hsrc dx dy a1 a2 a3 a4)
    refine ⟨v, hget, ?_⟩
    have := hnew dy.toNat dx.toNat (by omega) (by omega)
    simp only [Int.toNat_of_nonneg a1, Int.toNat_of_nonneg a3, levelAt, hget,
      Option.getD_some] at this
    exact this
  · intro X Y hout
    apply hold
    intro a b ha hb hpos
    apply hout
    omega

/-- The effect of `ImagePaste` on an accepted rectangle. -/
theorem paste_run (img1 img2 : Image) (x y : Int) (h1 : img1.lenOK) (h2 : img2.lenOK)
    (hr : ImageValidRect img1 x y img2.width img2.height = true) :
    ∃ r, ImagePaste img1 x y img2 = some r ∧ r.sameShape img1 ∧ r.lenOK ∧
      (∀ dx dy : Int, 0 ≤ dx → dx < img2.width → 0 ≤ dy → dy < img2.height →
        ∃ v, ImageGetPixel img2 dx dy = some v ∧
          ImageGetPixel r (x + dx) (y + dy) = some (v % 256)) ∧
      (∀ X Y : Int, ¬ (x ≤ X ∧ X < x + img2.width ∧ y ≤ Y ∧ Y < y + img2.height) →
        ImageGetPixel r X Y = ImageGetPixel img1 X Y) := by
  obtain ⟨r, hrun, hrest⟩ := overwrite_rect
    (fun a b s =>
      match ImageGetPixel img2 b a with
      | none => none
      | some v => ImageSetPixel s (x + b) (y + a) v)
    img1 img2 x y h1 h2 hr
    (fun a b s v _ _ _ _ hv => by simp [hv])
  refine ⟨r, ?_, hrest⟩
  unfold ImagePaste
  rw [if_pos hr]
  exact hrun

/-- The effect of `ImageBlend` on an accepted rectangle when `alpha` is 1. -/
theorem blend_run (img1 img2 : Image) (x y : Int) (alpha : Double) (h1 : img1.lenOK)
    (h2 : img2.lenOK) (hpix : ∀ p ∈ img2.pixel, p < 256)
    (hr : ImageValidRect img1 x y img2.width img2.height = true)
    (hd : 0 < alpha.den) (hone : alpha.num = (alpha.den : Int)) :
    ∃ r, ImageBlend img1 x y img2 alpha = some r ∧ r.sameShape img1 ∧ r.lenOK ∧
      (∀ dx dy : Int, 0 ≤ dx → dx < img2.width → 0 ≤ dy → dy < img2.height →
        ∃ v, ImageGetPixel img2 dx dy = some v ∧
          ImageGetPixel r (x + dx) (y + dy) = some (v % 256)) ∧
      (∀ X Y : Int, ¬ (x ≤ X ∧ X < x + img2.width ∧ y ≤ Y ∧ Y < y + img2.height) →
        ImageGetPixel r X Y = ImageGetPixel img1 X Y) := by
  have hcor := (validRect_corners img1 x y img2.width img2.height).1 hr
  obtain ⟨r, hrun, hrest⟩ := overwrite_rect
    (fun a b s =>
      match ImageGetPixel img2 b a with
      | none => none
      | some nivelImg2 =>
        match ImageGetPixel s (x + b) (y + a) with
        | none => none
        | some nivelImg1 =>
          let novoNivel : Double :=
            { num := alpha.num * (nivelImg2 : Int) +
                ((alpha.den : Int) - alpha.num) * (nivelImg1 : Int),
              den := alpha.den }
          let novoNivel : Double :=
            if novoNivel.num > (PixMax : Int) * novoNivel.den then { num := PixMax, den := 1 }
            else novoNivel
          let novoNivel : Double :=
            if novoNivel.num < 0 then { num := 0, den := 1 } else novoNivel
          let novoNivel : Nat := (Int.tdiv novoNivel.num novoNivel.den % 256).toNat
          ImageSetPixel s (x + b) (y + a) novoNivel)
    img1 img2 x y h1 h2 hr
    (fun a b s v ha hb hsh hl hv => by
      have hvs : ImageValidPos s (x + b) (y + a) = true := by
        rw [validPos_congr hsh, validPos_iff]; omega
      obtain ⟨v1, hg1, _⟩ := getPixel_isSome hl hvs
      have hv256 : v < 256 := hpix v (getPixel_mem hv)
      have hle : ¬ ((alpha.den : Int) * (v : Int) > (PixMax : Int) * (alpha.den : Int)) := by
        have : (alpha.den : Int) * (v : Int) ≤ (alpha.den : Int) * 255 :=
          mul_le_mul_of_nonneg_left (by omega) (by omega)
        have hp : ((PixMax : Nat) : Int) = 255 := rfl
        rw [hp]
        intro hgt
        nlinarith
      have hnn : ¬ ((alpha.den : Int) * (v : Int) < 0) := by
        have : (0 : Int) ≤ (alpha.den : Int) * (v : Int) := mul_nonneg (by omega) (by omega)
        omega
      have hdiv : Int.tdiv ((alpha.den : Int) * (v : Int)) (alpha.den : Int) = (v : Int) := by
        rw [Int.tdiv_eq_ediv (mul_nonneg (by omega) (by omega)) (by omega)]
        exact Int.mul_ediv_cancel_left _ (by omega)
      simp only [hv, hg1, hone, sub_self, zero_mul, add_zero, hle, if_false, hnn, hdiv]
      congr 1
      omega)
  refine ⟨r, ?_, hrest⟩
  unfold ImageBlend
  rw [if_pos hr]
  exact hrun

/-- C12: with `alpha = 1` (numerator equal to the denominator) and an accepted rectangle,
`ImageBlend` and `ImagePaste` both succeed and produce the same image. -/
theorem ImageBlend_one_eq_ImagePaste (img1 img2 : Image) (x y : Int) (alpha : Double)
    (h1 : img1.wf) (h2 : img2.wf)
    (hr : ImageValidRect img1 x y img2.width img2.height = true)
    (hd : 0 < alpha.den) (hone : alpha.num = (alpha.den : Int)) :
    ∃ r, ImageBlend img1 x y img2 alpha = some r ∧ ImagePaste img1 x y img2 = some r ∧
      ∀ X Y : Int, ImageGetPixel r X Y =
        (ImagePaste img1 x y img2).bind (fun p => ImageGetPixel p X Y) := by
  obtain ⟨h0w, _, _, _, hlen1, _⟩ := h1
  obtain ⟨_, _, _, _, hlen2, hpix2⟩ := h2
  obtain ⟨rb, hb, hshb, hlb, hnewb, holdb⟩ :=
    blend_run img1 img2 x y alpha hlen1 hlen2 hpix2 hr hd hone
  obtain ⟨rp, hp, hshp, hlp, hnewp, holdp⟩ := paste_run img1 img2 x y hlen1 hlen2 hr
  have heq : rb = rp := by
    apply image_ext ⟨hshb.1.trans hshp.1.symm, hshb.2.1.trans hshp.2.1.symm,
      hshb.2.2.trans hshp.2.2.symm⟩ (by rw [hshb.1]; exact h0w) hlb hlp
    intro X Y
    by_cases hin : x ≤ X ∧ X < x + img2.width ∧ y ≤ Y ∧ Y < y + img2.height
    · obtain ⟨v, hv, hgb⟩ := hnewb (X - x) (Y - y) (by omega) (by omega) (by omega) (by omega)
      obtain ⟨v', hv', hgp⟩ := hnewp (X - x) (Y - y) (by omega) (by omega) (by omega) (by omega)
      rw [hv] at hv'
      cases hv'
      have e1 : x + (X - x) = X := by omega
      have e2 : y + (Y - y) = Y := by omega
      rw [e1, e2] at hgb hgp
      rw [hgb, hgp]
    · rw [holdb X Y hin, holdp X Y hin]
  refine ⟨rb, hb, by rw [hp, heq], ?_⟩
  intro X Y
  rw [hp, heq]
  rfl

/-- An instance of C12: the 2×2 image blended at `(1,1)` of the 3×3 image, factor 1.0. -/
theorem ImageBlend_one_eq_ImagePaste_witness :
    ∃ r, ImageBlend img3x3 1 1 img2x2 one = some r ∧ ImagePaste img3x3 1 1 img2x2 = some r ∧
      ∀ X Y : Int, ImageGetPixel r X Y =
        (ImagePaste img3x3 1 1 img2x2).bind (fun p => ImageGetPixel p X Y) :=
  ImageBlend_one_eq_ImagePaste img3x3 img2x2 1 1 one (by decide) (by decide) (by decide)
    (by decide) (by decide)

/-- C19: after `ImagePaste(A, x, y, B)` on an accepted rectangle,
`ImageMatchSubImage(A, x, y, B)` returns 1. -/
theorem ImagePaste_then_match (A B : Image) (x y : Int) (hA : A.wf) (hB : B.wf)
    (hr : ImageValidRect A x y B.width B.height = true) :
    ∃ r, ImagePaste A x y B = some r ∧ ImageMatchSubImage r x y B = some 1 := by
  obtain ⟨_, _, _, _, hlenA, _⟩ := hA
  obtain ⟨_, _, _, _, hlenB, hpixB⟩ := hB
  obtain ⟨r, hp, hsh, hl, hnew, _⟩ := paste_run A B x y hlenA hlenB hr
  refine ⟨r, hp, ?_⟩
  have hr' : ImageValidRect r x y B.width B.height = true := by
    rw [validRect_congr hsh]; exact hr
  rcases match_run hl hlenB hr' with ⟨hm, _⟩ | ⟨_, dx, dy, a1, a2, a3, a4, hne⟩
  · exact hm
  · exfalso
    obtain ⟨v, hv, hg⟩ := hnew dx dy a1 a2 a3 a4
    rw [Nat.mod_eq_of_lt (hpixB v (getPixel_mem hv))] at hg
    exact hne (by rw [hg, hv])

/-- An instance of C19: the 2×2 image pasted at `(1,1)` of the 3×3 image. -/
theorem ImagePaste_then_match_witness :
    ∃ r, ImagePaste img3x3 1 1 img2x2 = some r ∧ ImageMatchSubImage r 1 1 img2x2 = some 1 :=
  ImagePaste_then_match img3x3 img2x2 1 1 (by decide) (by decide) (by decide)

/-! ### Statistics -/

/-- C13 fails on the code: `ImageCreate` takes the pixel array from `malloc` and never
clears it, so the new image holds whatever the block held.  For a 1×1 image
`ImageStats` returns the byte found there as minimum and as maximum: 7 and 7 when the
block holds sevens, not 0 and 0. -/
theorem ImageCreate_not_black (mem : Nat → Nat) :
    (ImageCreate mem 1 1 255).bind ImageStats = some (mem 0 % 256, mem 0 % 256) ∧
      (ImageCreate sevenMem 1 1 255).bind ImageStats = some (7, 7) := by
  refine ⟨?_, by decide⟩
  have hlt : mem 0 % 256 < 256 := Nat.mod_lt _ (by decide)
  have hc : ImageCreate mem 1 1 255 =
      some { width := 1, height := 1, maxval := 255, pixel := [mem 0 % 256] } := rfl
  rw [hc]
  simp only [Option.bind, ImageStats, forRange, statsStep, PixMax, mul_one, Int.toNat_one,
    List.getElem?_cons_zero]
  congr 1
  apply Prod.ext
  · simp only
    split <;> omega
  · simp only
    split <;> omega

/-- C14: for a non-empty image `ImageStats` returns a pair `(min, max)` with
`min ≤ s ≤ max` for every level `s` of the image, and both `min` and `max` are levels of
the image.  The scan reads the entries `0 … width*height - 1` only (it does not abort),
and it returns nothing but the pair. -/
theorem ImageStats_spec (img : Image) (hwf : img.wf) (hne : 0 < img.width * img.height) :
    ∃ mn mx, ImageStats img = some (mn, mx) ∧ (∀ s ∈ img.pixel, mn ≤ s ∧ s ≤ mx) ∧
      mn ∈ img.pixel ∧ mx ∈ img.pixel := by
  obtain ⟨_, _, _, _, hlen, hpix⟩ := hwf
  have key := forRange_inv (statsStep img)
    (fun i mm => (∀ j, j < i → ∀ v, img.pixel[j]? = some v → mm.1 ≤ v ∧ v ≤ mm.2) ∧
      (i = 0 → mm.1 = 255 ∧ mm.2 = 0) ∧ (0 < i → mm.1 ∈ img.pixel ∧ mm.2 ∈ img.pixel))
    (img.width * img.height).toNat 0 (PixMax, 0)
    ⟨fun j hj => absurd hj (Nat.not_lt_zero _), fun _ => ⟨rfl, rfl⟩,
      fun h => absurd h (Nat.lt_irrefl _)⟩ ?_
  · obtain ⟨⟨mn, mx⟩, hrun, hbound, _, hmem⟩ := key
    simp only [Nat.zero_add] at hbound hmem
    refine ⟨mn, mx, hrun, ?_, hmem (by omega)⟩
    intro s hs
    obtain ⟨j, hj, hget⟩ := List.mem_iff_getElem.1 hs
    exact hbound j (by rw [← hlen]; exact hj) s (by rw [List.getElem?_eq_getElem hj, hget])
  · rintro i ⟨mn, mx⟩ _ hi ⟨hbound, hzero, hmem⟩
    have hilt : i < img.pixel.length := by rw [hlen]; omega
    have hget : img.pixel[i]? = some img.pixel[i] := List.getElem?_eq_getElem hilt
    have hcur : img.pixel[i] ∈ img.pixel := List.getElem_mem _
    have hc256 := hpix _ hcur
    refine ⟨(if img.pixel[i] < mn then img.pixel[i] else mn,
      if img.pixel[i] > mx then img.pixel[i] else mx), ?_, ?_, ?_, ?_⟩
    · simp only [statsStep, hget]
    · intro j hj v hv
      simp only
      by_cases hji : j = i
      · subst hji
        rw [hget] at hv
        cases hv
        constructor <;> split <;> omega
      · have := hbound j (by omega) v hv
        simp only at this
        constructor <;> split <;> omega
    · intro h0
      omega
    · intro _
      simp only
      by_cases hi0 : i = 0
      · have hz := hzero hi0
        simp only at hz
        constructor
        · split
          · exact hcur
          · have : img.pixel[i] = mn := by omega
            rw [← this]; exact hcur
        · split
          · exact hcur
          · have : img.pixel[i] = mx := by omega
            rw [← this]; exact hcur
      · have hm := hmem (by omega)
        simp only at hm
        constructor
        · split
          · exact hcur
          · exact hm.1
        · split
          · exact hcur
          · exact hm.2

/-- An instance of C14: the 3×3 image. -/
theorem ImageStats_spec_witness :
    ∃ mn mx, ImageStats img3x3 = some (mn, mx) ∧ (∀ s ∈ img3x3.pixel, mn ≤ s ∧ s ≤ mx) ∧
      mn ∈ img3x3.pixel ∧ mx ∈ img3x3.pixel :=
  ImageStats_spec img3x3 (by decide) (by decide)

/-! ### Pointwise transformations -/

/-- Two nested loops that replace, in place, the level `p` of every position by `f p`. -/
theorem pointwise_map (body : Nat → Nat → Image → Option Image) (f : Nat → Nat)
    (img : Image) (hlen : img.lenOK)
    (hbody : ∀ (a b : Nat) (s : Image) (p : Nat), ImageGetPixel s b a = some p →
      body a b s = ImageSetPixel s b a (f p)) :
    ∃ r, forRange (fun a s => forRange (fun b t => body a b t) 0 img.width.toNat s)
        0 img.height.toNat img = some r ∧ r.sameShape img ∧ r.lenOK ∧
      ∀ x y : Int, ImageValidPos img x y = true →
        ∃ p, ImageGetPixel img x y = some p ∧ ImageGetPixel r x y = some (f p % 256) := by
  have hsrc : ∀ a b : Nat, a < img.height.toNat → b < img.width.toNat →
      ImageValidPos img b a = true := by
    intro a b ha hb
    rw [validPos_iff]; omega
  obtain ⟨r, hrun, hsh, hl, hnew, _⟩ := fill_raster body
    img.height.toNat img.width.toNat (fun _ b => (b : Int)) (fun a _ => (a : Int))
    (fun a b => f (levelAt img b a)) img hlen
    (fun a b ha hb => hsrc a b ha hb)
    (fun a b a' b' _ _ _ _ e1 e2 => by
      simp only at e1 e2
      omega)
    (fun a b s ha hb _ _ hcur => by
      obtain ⟨p, hp, _⟩ := getPixel_isSome hlen (hsrc a b ha hb)
      simp only at hcur
      rw [hp] at hcur
      rw [hbody a b s p hcur]
      simp [levelAt, hp])
  refine ⟨r, hrun, hsh, hl, ?_⟩
  intro x y hv
  obtain ⟨h1, h2, h3, h4⟩ := (validPos_iff img x y).1 hv
  obtain ⟨p, hp, _⟩ := getPixel_isSome hlen hv
  refine ⟨p, hp, ?_⟩
  have := hnew y.toNat x.toNat (by omega) (by omega)
  simp only [Int.toNat_of_nonneg h1, Int.toNat_of_nonneg h3, levelAt, hp,
    Option.getD_some] at this
  exact this

/-- C16: `ImageNegative` succeeds, keeps width, height and maxval, and replaces every
level `s` by `255 - s`, whatever the maxval of the image; the 2×2 image
10, 20 / 30, 40 becomes 245, 235 / 225, 215. -/
theorem ImageNegative_spec (img : Image) (hwf : img.wf) :
    ∃ r, ImageNegative img = some r ∧ r.width = img.width ∧ r.height = img.height ∧
      r.maxval = img.maxval ∧
      (∀ x y : Int, ImageValidPos img x y = true →
        ∃ s, ImageGetPixel img x y = some s ∧ ImageGetPixel r x y = some (255 - s)) ∧
      ImageNegative img2x2 =
        some { width := 2, height := 2, maxval := 255, pixel := [245, 235, 225, 215] } := by
  obtain ⟨_, _, _, _, hlen, hpix⟩ := hwf
  obtain ⟨r, hrun, hsh, _, hnew⟩ := pointwise_map
    (fun a b s =>
      match ImageGetPixel s b a with
      | none => none
      | some pixel => ImageSetPixel s b a (((PixMax : Int) - (pixel : Int)) % 256).toNat)
    (fun p => (((PixMax : Int) - (p : Int)) % 256).toNat) img hlen
    (fun a b s p hp => by simp [hp])
  refine ⟨r, hrun, hsh.1, hsh.2.1, hsh.2.2, ?_, by decide⟩
  intro x y hv
  obtain ⟨p, hp, hr⟩ := hnew x y hv
  refine ⟨p, hp, ?_⟩
  rw [hr]
  have hlt := hpix p (getPixel_mem hp)
  have hP : ((PixMax : Nat) : Int) = 255 := rfl
  congr 1
  rw [hP]
  omega

/-- An instance of C16: an image whose maxval is 100. -/
theorem ImageNegative_spec_witness :
    ∃ r, ImageNegative { width := 2, height := 1, maxval := 100, pixel := [0, 100] } = some r ∧
      r.width = 2 ∧ r.height = 1 ∧ r.maxval = 100 ∧
      (∀ x y : Int,
        ImageValidPos { width := 2, height := 1, maxval := 100, pixel := [0, 100] } x y = true →
        ∃ s, ImageGetPixel { width := 2, height := 1, maxval := 100, pixel := [0, 100] } x y
            = some s ∧ ImageGetPixel r x y = some (255 - s)) ∧
      ImageNegative img2x2 =
        some { width := 2, height := 2, maxval := 255, pixel := [245, 235, 225, 215] } :=
  ImageNegative_spec { width := 2, height := 1, maxval := 100, pixel := [0, 100] } (by decide)

/-- C17: `ImageThreshold` succeeds, keeps width, height and maxval, and replaces every
level `s` by 0 when `s < thr` and by 255 otherwise, whatever the maxval of the image. -/
theorem ImageThreshold_spec (img : Image) (thr : Nat) (hwf : img.wf) :
    ∃ r, ImageThreshold img thr = some r ∧ r.width = img.width ∧ r.height = img.height ∧
      r.maxval = img.maxval ∧
      ∀ x y : Int, ImageValidPos img x y = true →
        ∃ s, ImageGetPixel img x y = some s ∧
          ImageGetPixel r x y = some (if s < thr then 0 else 255) := by
  obtain ⟨_, _, _, _, hlen, _⟩ := hwf
  obtain ⟨r, hrun, hsh, _, hnew⟩ := pointwise_map
    (fun a b s =>
      match ImageGetPixel s b a with
      | none => none
      | some pixel => ImageSetPixel s b a (if pixel < thr then 0 else PixMax))
    (fun p => if p < thr then 0 else PixMax) img hlen
    (fun a b s p hp => by simp [hp])
  refine ⟨r, hrun, hsh.1, hsh.2.1, hsh.2.2, ?_⟩
  intro x y hv
  obtain ⟨p, hp, hr⟩ := hnew x y hv
  refine ⟨p, hp, ?_⟩
  rw [hr]
  congr 1
  unfold PixMax
  split <;> rfl

/-- An instance of C17: the 3×3 image with threshold 5. -/
theorem ImageThreshold_spec_witness :
    ∃ r, ImageThreshold img3x3 5 = some r ∧ r.width = img3x3.width ∧
      r.height = img3x3.height ∧ r.maxval = img3x3.maxval ∧
      ∀ x y : Int, ImageValidPos img3x3 x y = true →
        ∃ s, ImageGetPixel img3x3 x y = some s ∧
          ImageGetPixel r x y = some (if s < 5 then 0 else 255) :=
  ImageThreshold_spec img3x3 5 (by decide)

/-! ### Rotating four times -/

/-- The effect of one `ImageRotate`. -/
theorem rotate_run (mem : Nat → Nat) (img : Image) (h0w : 0 ≤ img.width)
    (h0h : 0 ≤ img.height) (hm0 : 0 < img.maxval) (hm : img.maxval ≤ 255) (hlen : img.lenOK) :
    ∃ r, ImageRotate mem img = some r ∧ r.width = img.height ∧ r.height = img.width ∧
      r.maxval = img.maxval ∧ r.lenOK ∧
      ∀ x y : Int, ImageValidPos img x y = true →
        ∃ v, ImageGetPixel img x y = some v ∧
          ImageGetPixel r y (img.width - 1 - x) = some (v % 256) := by
  obtain ⟨r0, hc, hrw, hrh, hrm, hrl⟩ := ImageCreate_spec mem h0h h0w hm0 hm
  have hsrc : ∀ a b : Nat, a < img.height.toNat → b < img.width.toNat →
      ImageValidPos img b a = true := by
    intro a b ha hb
    rw [validPos_iff]; omega
  obtain ⟨r, hrun, hsh, hl, hnew, _⟩ := fill_raster
    (fun a b s =>
      match ImageGetPixel img b a with
      | none => none
      | some v => ImageSetPixel s a (img.width - b - 1) v)
    img.height.toNat img.width.toNat (fun a _ => (a : Int)) (fun _ b => img.width - b - 1)
    (fun a b => levelAt img b a) r0 hrl
    (fun a b ha hb => by rw [validPos_iff, hrw, hrh]; dsimp only; omega)
    (fun a b a' b' _ _ _ _ e1 e2 => by
      simp only at e1 e2
      omega)
    (fun a b s ha hb _ _ _ => by
      obtain ⟨v, hv, _⟩ := getPixel_isSome hlen (hsrc a b ha hb)
      simp [hv, levelAt])
  refine ⟨r, ?_, hsh.1.trans hrw, hsh.2.1.trans hrh, hsh.2.2.trans hrm, hl, ?_⟩
  · unfold ImageRotate
    rw [hc]
    exact hrun
  · intro x y hv
    obtain ⟨h1, h2, h3, h4⟩ := (validPos_iff img x y).1 hv
    obtain ⟨v, hget, _⟩ := getPixel_isSome hlen hv
    refine ⟨v, hget, ?_⟩
    have := hnew y.toNat x.toNat (by omega) (by omega)
    simp only [Int.toNat_of_nonneg h1, Int.toNat_of_nonneg h3, levelAt, hget,
      Option.getD_some] at this
    have he : img.width - 1 - x = img.width - x - 1 := by omega
    rw [he]
    exact this

/-- C18: four applications of `ImageRotate` succeed and give back an image with the
original width, height and maxval and the original level at every position: the
original image. -/
theorem ImageRotate_four (m1 m2 m3 m4 : Nat → Nat) (img : Image) (hwf : img.wf) :
    ∃ r1 r2 r3 r4, ImageRotate m1 img = some r1 ∧ ImageRotate m2 r1 = some r2 ∧
      ImageRotate m3 r2 = some r3 ∧ ImageRotate m4 r3 = some r4 ∧
      r4.width = img.width ∧ r4.height = img.height ∧ r4.maxval = img.maxval ∧
      (∀ x y : Int, ImageGetPixel r4 x y = ImageGetPixel img x y) ∧ r4 = img := by
  obtain ⟨h0w, h0h, hm0, hm, hlen, hpix⟩ := hwf
  obtain ⟨r1, e1, w1, hh1, mv1, l1, g1⟩ := rotate_run m1 img h0w h0h hm0 hm hlen
  obtain ⟨r2, e2, w2, hh2, mv2, l2, g2⟩ := rotate_run m2 r1 (by omega) (by omega)
    (by omega) (by omega) l1
  obtain ⟨r3, e3, w3, hh3, mv3, l3, g3⟩ := rotate_run m3 r2 (by omega) (by omega)
    (by omega) (by omega) l2
  obtain ⟨r4, e4, w4, hh4, mv4, l4, g4⟩ := rotate_run m4 r3 (by omega) (by omega)
    (by omega) (by omega) l3
  have hsh : r4.sameShape img := ⟨by omega, by omega, by omega⟩
  have hget : ∀ x y : Int, ImageGetPixel r4 x y = ImageGetPixel img x y := by
    intro x y
    by_cases hv : ImageValidPos img x y = true
    · obtain ⟨a1, a2, a3, a4⟩ := (validPos_iff img x y).1 hv
      obtain ⟨v, hv0, hv1⟩ := g1 x y hv
      have hlt : v < 256 := hpix v (getPixel_mem hv0)
      rw [Nat.mod_eq_of_lt hlt] at hv1
      obtain ⟨v', hv1', hv2⟩ := g2 y (img.width - 1 - x) (by rw [validPos_iff]; omega)
      rw [hv1] at hv1'
      cases hv1'
      rw [Nat.mod_eq_of_lt hlt] at hv2
      obtain ⟨v', hv2', hv3⟩ := g3 (img.width - 1 - x) (r1.width - 1 - y)
        (by rw [validPos_iff]; omega)
      rw [hv2] at hv2'
      cases hv2'
      rw [Nat.mod_eq_of_lt hlt] at hv3
      obtain ⟨v', hv3', hv4⟩ := g4 (r1.width - 1 - y) (r2.width - 1 - (img.width - 1 - x))
        (by rw [validPos_iff]; omega)
      rw [hv3] at hv3'
      cases hv3'
      rw [Nat.mod_eq_of_lt hlt] at hv4
      have ex : r2.width - 1 - (img.width - 1 - x) = x := by omega
      have ey : r3.width - 1 - (r1.width - 1 - y) = y := by omega
      rw [ex, ey] at hv4
      rw [hv4, hv0]
    · have hv' : ImageValidPos img x y = false := by simpa using hv
      rw [getPixel_invalid hv', getPixel_invalid (by rw [validPos_congr hsh]; exact hv')]
  exact ⟨r1, r2, r3, r4, e1, e2, e3, e4, hsh.1, hsh.2.1, hsh.2.2, hget,
    image_ext hsh (by rw [hsh.1]; exact h0w) l4 hlen hget⟩

/-- An instance of C18: the 3×1 image. -/
theorem ImageRotate_four_witness :
    ∃ r1 r2 r3 r4, ImageRotate zeroMem img3x1 = some r1 ∧ ImageRotate sevenMem r1 = some r2 ∧
      ImageRotate zeroMem r2 = some r3 ∧ ImageRotate sevenMem r3 = some r4 ∧
      r4.width = img3x1.width ∧ r4.height = img3x1.height ∧ r4.maxval = img3x1.maxval ∧
      (∀ x y : Int, ImageGetPixel r4 x y = ImageGetPixel img3x1 x y) ∧ r4 = img3x1 :=
  ImageRotate_four zeroMem sevenMem zeroMem sevenMem img3x1 (by decide)

/-! ### Locating a crop -/

/-- The effect of `ImageCrop` on an accepted rectangle of non-negative size. -/
theorem crop_run (mem : Nat → Nat) (img : Image) (x y w h : Int) (hm0 : 0 < img.maxval)
    (hm : img.maxval ≤ 255) (hlen : img.lenOK)
    (hr : ImageValidRect img x y w h = true) (hw : 0 ≤ w) (hh : 0 ≤ h) :
    ∃ r, ImageCrop mem img x y w h = some r ∧ r.width = w ∧ r.height = h ∧
      r.maxval = img.maxval ∧ r.lenOK ∧
      ∀ dx dy : Int, 0 ≤ dx → dx < w → 0 ≤ dy → dy < h →
        ∃ v, ImageGetPixel img (x + dx) (y + dy) = some v ∧
          ImageGetPixel r dx dy = some (v % 256) := by
  obtain ⟨r0, hc, hrw, hrh, hrm, hrl⟩ := ImageCreate_spec mem hw hh hm0 hm
  have hcor := (validRect_corners img x y w h).1 hr
  have hsrc : ∀ dx dy : Int, 0 ≤ dx → dx < w → 0 ≤ dy → dy < h →
      ImageValidPos img (x + dx) (y + dy) = true := by
    intro dx dy h1 h2 h3 h4
    rw [validPos_iff]; omega
  obtain ⟨r, hrun, hsh, hl, hnew, _⟩ := fill_raster
    (fun a b s =>
      match ImageGetPixel img (x + b) (y + a) with
      | none => none
      | some v => ImageSetPixel s b a v)
    h.toNat w.toNat (fun _ b => (b : Int)) (fun a _ => (a : Int))
    (fun a b => levelAt img (x + b) (y + a)) r0 hrl
    (fun a b ha hb => by rw [validPos_iff, hrw, hrh]; dsimp only; omega)
    (fun a b a' b' _ _ _ _ h1 h2 => by
      simp only at h1 h2
      omega)
    (fun a b s ha hb _ _ _ => by
      obtain ⟨v, hv, _⟩ := getPixel_isSome hlen
        (hsrc b a (by omega) (by omega) (by omega) (by omega))
      simp [hv, levelAt])
  refine ⟨r, ?_, hsh.1.trans hrw, hsh.2.1.trans hrh, hsh.2.2.trans hrm, hl, ?_⟩
  · unfold ImageCrop
    rw [if_pos hr, hc]
    exact hrun
  · intro dx dy h1 h2 h3 h4
    obtain ⟨v, hget, _⟩ := getPixel_isSome hlen (hsrc dx dy h1 h2 h3 h4)
    refine ⟨v, hget, ?_⟩
    have := hnew dy.toNat dx.toNat (by omega) (by omega)
    simp only [Int.toNat_of_nonneg h1, Int.toNat_of_nonneg h3, levelAt, hget,
      Option.getD_some] at this
    exact this

/-- What `ImageLocateSubImage` returns when `img1` is not empty or `img2` does not fit:
the first match of the scan, or 0 when the scanned range holds no match. -/
theorem locate_run (img1 img2 : Image) (px py : Int) (hlen1 : img1.lenOK)
    (hlen2 : img2.lenOK)
    (hne : ImageValidPos img1 0 0 = true ∨ img1.width < img2.width ∨
      img1.height < img2.height) :
    (∃ x0 y0 : Int, ImageLocateSubImage img1 px py img2 = some (1, x0, y0) ∧
        (0 ≤ y0 ∧ y0 ≤ img1.height - img2.height ∧ 0 ≤ x0 ∧ x0 ≤ img1.width - img2.width) ∧
        ImageMatchSubImage img1 x0 y0 img2 = some 1 ∧
        ∀ x y : Int, 0 ≤ y → y ≤ img1.height - img2.height → 0 ≤ x →
          x ≤ img1.width - img2.width → ImageMatchSubImage img1 x y img2 = some 1 →
          (y0 < y ∨ (y0 = y ∧ x0 ≤ x))) ∨
    (ImageLocateSubImage img1 px py img2 = some (0, px, py) ∧
        ∀ x y : Int, 0 ≤ y → y ≤ img1.height - img2.height → 0 ≤ x →
          x ≤ img1.width - img2.width → ImageMatchSubImage img1 x y img2 ≠ some 1) := by
  unfold ImageLocateSubImage
  rcases forReturn_nested (locateStep img1 img2) (img1.height - img2.height + 1).toNat
      (img1.width - img2.width + 1).toNat with
    ⟨_, a, b, ha, hb, hf, hprev⟩ | ⟨r, hr, a, b, ha, hb, hf, hprev⟩ | ⟨hr, hall⟩
  · exfalso
    have hnone := locateStep_none hf
    by_cases hpos : 1 ≤ img2.width ∧ 1 ≤ img2.height
    · obtain ⟨r, hr⟩ := match_total (x := (b : Int)) (y := (a : Int)) hlen1 hlen2
        (by omega) (by omega) (by omega) (by omega) hpos.1 hpos.2
      rw [hr] at hnone
      cases hnone
    · have hv0 : ImageValidPos img1 0 0 = true := by
        rcases hne with h | h | h
        · exact h
        · omega
        · omega
      have hm0 : ImageMatchSubImage img1 0 0 img2 = some 1 :=
        match_degenerate hv0 (by omega)
      by_cases h00 : a = 0 ∧ b = 0
      · obtain ⟨ha0, hb0⟩ := h00
        subst ha0 hb0
        simp only [Nat.cast_zero] at hnone
        rw [hm0] at hnone
        cases hnone
      · have hthrough := locateStep_through (hprev 0 0 (by omega) (by omega) (by omega))
        simp only [Nat.cast_zero] at hthrough
        rw [hm0] at hthrough
        cases hthrough
  · left
    obtain ⟨hm, hrv⟩ := locateStep_return hf
    refine ⟨(b : Int), (a : Int), by rw [hr, hrv], by omega, hm, ?_⟩
    intro x y hy0 hy hx0 hx hmatch
    by_contra hlt
    have hearly : y.toNat < a ∨ (y.toNat = a ∧ x.toNat < b) := by omega
    have hthrough := locateStep_through (hprev y.toNat x.toNat (by omega) (by omega) hearly)
    rw [Int.toNat_of_nonneg hx0, Int.toNat_of_nonneg hy0, hmatch] at hthrough
    cases hthrough
  · right
    refine ⟨by rw [hr], ?_⟩
    intro x y hy0 hy hx0 hx hmatch
    have hthrough := locateStep_through (hall y.toNat x.toNat (by omega) (by omega))
    rw [Int.toNat_of_nonneg hx0, Int.toNat_of_nonneg hy0, hmatch] at hthrough
    cases hthrough

/-- C20: for a rectangle `(x0,y0,w,h)` of `dst` with `w ≥ 1` and `h ≥ 1`,
`ImageCrop` succeeds and `ImageLocateSubImage` finds the crop in `dst`: it returns 1 with a
position `(qx,qy)` that matches and does not come after `(x0,y0)` in the scan order, and
`(qx,qy)` is `(x0,y0)` when no earlier position of the scan matches. -/
theorem ImageLocate_crop (mem : Nat → Nat) (dst : Image) (x0 y0 w h px py : Int)
    (hwf : dst.wf) (hw : 1 ≤ w) (hh : 1 ≤ h) (hr : ImageValidRect dst x0 y0 w h = true) :
    ∃ c qx qy, ImageCrop mem dst x0 y0 w h = some c ∧
      ImageLocateSubImage dst px py c = some (1, qx, qy) ∧
      ImageMatchSubImage dst qx qy c = some 1 ∧
      (qy < y0 ∨ (qy = y0 ∧ qx ≤ x0)) ∧
      ((∀ x y : Int, 0 ≤ y → y ≤ dst.height - h → 0 ≤ x → x ≤ dst.width - w →
          (y < y0 ∨ (y = y0 ∧ x < x0)) → ImageMatchSubImage dst x y c ≠ some 1) →
        qx = x0 ∧ qy = y0) := by
  obtain ⟨_, _, hm0, hm, hlen, hpix⟩ := hwf
  obtain ⟨c, hc, hcw, hch, _, hcl, hcget⟩ :=
    crop_run mem dst x0 y0 w h hm0 hm hlen hr (by omega) (by omega)
  have hcor := (validRect_corners dst x0 y0 w h).1 hr
  have hmatch0 : ImageMatchSubImage dst x0 y0 c = some 1 := by
    rcases match_run hlen hcl (by rw [hcw, hch]; exact hr) with
      ⟨hm1, _⟩ | ⟨_, dx, dy, a1, a2, a3, a4, hne⟩
    · exact hm1
    · exfalso
      obtain ⟨v, hv, hg⟩ := hcget dx dy a1 (by omega) a3 (by omega)
      rw [Nat.mod_eq_of_lt (hpix v (getPixel_mem hv))] at hg
      exact hne (by rw [hg, hv])
  have hv0 : ImageValidPos dst 0 0 = true := by
    rw [validPos_iff]; omega
  rcases locate_run dst c px py hlen hcl (Or.inl hv0) with
    ⟨qx, qy, hloc, hrange, hm1, hfirst⟩ | ⟨_, hnone⟩
  · rw [hcw, hch] at hrange hfirst
    have hbefore := hfirst x0 y0 (by omega) (by omega) (by omega) (by omega) hmatch0
    refine ⟨c, qx, qy, hc, hloc, hm1, hbefore, ?_⟩
    intro hearlier
    by_contra hneq
    exact hearlier qx qy hrange.1 hrange.2.1 hrange.2.2.1 hrange.2.2.2 (by omega) hm1
  · exfalso
    rw [hcw, hch] at hnone
    exact hnone x0 y0 (by omega) (by omega) (by omega) (by omega) hmatch0

/-- An instance of C20: the 2×2 block at `(1,1)` of the 3×3 image. -/
theorem ImageLocate_crop_witness :
    ∃ c qx qy, ImageCrop zeroMem img3x3 1 1 2 2 = some c ∧
      ImageLocateSubImage img3x3 7 7 c = some (1, qx, qy) ∧
      ImageMatchSubImage img3x3 qx qy c = some 1 ∧
      (qy < 1 ∨ (qy = 1 ∧ qx ≤ 1)) ∧
      ((∀ x y : Int, 0 ≤ y → y ≤ img3x3.height - 2 → 0 ≤ x → x ≤ img3x3.width - 2 →
          (y < 1 ∨ (y = 1 ∧ x < 1)) → ImageMatchSubImage img3x3 x y c ≠ some 1) →
        qx = 1 ∧ qy = 1) :=
  ImageLocate_crop zeroMem img3x3 1 1 2 2 7 7 (by decide) (by decide) (by decide) (by decide)

/-! ### Rejecting malformed files -/

/-- The conversion `%d` succeeds exactly on a numeric field. -/
theorem scanInt_isSome (s : List Nat) :
    (∃ r, scanInt s = some r) ↔ startsWithNumber (skipSpace s) = true := by
  unfold scanInt
  cases hs : skipSpace s with
  | nil => simp [startsWithNumber]
  | cons c cs =>
    cases cs with
    | nil =>
      by_cases h45 : c = 45
      · subst h45; simp [startsWithNumber, isdigit]
      · by_cases h43 : c = 43
        · subst h43; simp [startsWithNumber, isdigit]
        · by_cases hd : isdigit c = true <;> simp [startsWithNumber, h45, h43, hd]
    | cons d ds =>
      by_cases h45 : c = 45
      · subst h45
        by_cases hd : isdigit d = true <;> simp [startsWithNumber, isdigit, hd]
      · by_cases h43 : c = 43
        · subst h43
          by_cases hd : isdigit d = true <;> simp [startsWithNumber, isdigit, hd]
        · by_cases hd : isdigit c = true <;> simp [startsWithNumber, h45, h43, hd]

/-- The loader with exact integers returns an image only for a well-formed file: if an
image is returned, then the file starts with `P5`; the width, height and maxval fields are present
and numeric; width and height are not negative; maxval is in 1..255; the byte after
maxval is white space; and at least `width*height` bytes follow, the first
`width*height` of which are the pixels.  So no image is returned when one of these
fails. -/
theorem ImageLoad_inversion (mem : Nat → Nat) (f : List Nat) (img : Image)
    (h : ImageLoad mem f = some img) :
    ∃ f1 f2 f3 c f5, f = 80 :: 53 :: f1 ∧
      startsWithNumber (skipSpace (skipComments (skipSpace f1))) = true ∧
      scanInt (skipComments (skipSpace f1)) = some (img.width, f2) ∧ 0 ≤ img.width ∧
      startsWithNumber (skipSpace (skipComments (skipSpace f2))) = true ∧
      scanInt (skipComments (skipSpace f2)) = some (img.height, f3) ∧ 0 ≤ img.height ∧
      startsWithNumber (skipSpace (skipComments (skipSpace f3))) = true ∧
      scanInt (skipComments (skipSpace f3)) = some (img.maxval, c :: f5) ∧
      1 ≤ img.maxval ∧ img.maxval ≤ 255 ∧ isspace c = true ∧
      (img.width * img.height).toNat ≤ f5.length ∧
      img.pixel = f5.take (img.width * img.height).toNat := by
  unfold ImageLoad at h
  split at h
  · rename_i c0 f1
    split at h
    · rename_i hc0
      subst hc0
      split at h
      · cases h
      · rename_i w f2 hw
        split at h
        · rename_i hw0
          split at h
          · cases h
          · rename_i hgt f3 hh
            split at h
            · rename_i hh0
              split at h
              · cases h
              · rename_i mv f4 hmv
                split at h
                · rename_i hrange
                  split at h
                  · cases h
                  · rename_i c f5
                    split at h
                    · rename_i hsp
                      split at h
                      · cases h
                      · rename_i r0 hcreate
                        split at h
                        · rename_i hlenf
                          have hP : ((PixMax : Nat) : Int) = 255 := rfl
                          rw [hP] at hrange
                          have hmvc : (((mv % 256).toNat : Nat) : Int) = mv := by omega
                          unfold ImageCreate at hcreate
                          split at hcreate
                          · simp only [Option.some.injEq] at hcreate
                            subst hcreate
                            simp only [Option.some.injEq] at h
                            subst h
                            simp only [hmvc]
                            refine ⟨f1, f2, f3, c, f5, rfl, (scanInt_isSome _).1 ⟨_, hw⟩, hw, hw0,
                              (scanInt_isSome _).1 ⟨_, hh⟩, hh, hh0,
                              (scanInt_isSome _).1 ⟨_, hmv⟩, hmv, by omega, hrange.2, hsp, ?_, ?_⟩
                            · rw [List.length_take] at hlenf
                              omega
                            · rw [List.drop_eq_nil_of_le (by simp), List.append_nil]
                          · cases hcreate
                        · cases h
                    · cases h
                · cases h
            · cases h
        · cases h
    · cases h
  · cases h

/-- A number that fits in an `int` is stored as it is. -/
theorem storeInt_of_fits {n : Int} (h : fitsInt n) : storeInt n = n := by
  unfold fitsInt at h
  unfold storeInt satLong toInt32
  split
  · omega
  · split
    · omega
    · omega

theorem toInt32_of_fits {n : Int} (h : fitsInt n) : toInt32 n = n := by
  unfold fitsInt at h
  unfold toInt32
  omega

/-- What `%d` stores is the number written in the field, converted to an `int`. -/
theorem scanInt32_eq_some {s : List Nat} {w : Int} {r : List Nat}
    (h : scanInt32 s = some (w, r)) :
    ∃ W, scanInt s = some (W, r) ∧ w = storeInt W := by
  unfold scanInt32 at h
  split at h
  · cases h
  · rename_i n rest hn
    simp only [Option.some.injEq, Prod.mk.injEq] at h
    obtain ⟨h1, h2⟩ := h
    subst h2
    exact ⟨n, hn, h1.symm⟩

/-- A number that fits in an `int` is read by `%d` as it is written. -/
theorem scanInt32_of_fits {s : List Nat} {n : Int} {r : List Nat}
    (h : scanInt s = some (n, r)) (hn : fitsInt n) : scanInt32 s = some (n, r) := by
  unfold scanInt32
  rw [h]
  simp only
  rw [storeInt_of_fits hn]

/-- The two loaders agree where no number overflows: an image returned by the loader
with exact integers, whose width, height and number of pixels fit in an `int`, is
returned by the loader with 32-bit integers too. -/
theorem ImageLoad32_of_ImageLoad (mem : Nat → Nat) (f : List Nat) (img : Image)
    (h : ImageLoad mem f = some img) (hint : img.intSized) :
    ImageLoad32 mem f = some img := by
  have hcopy := h
  obtain ⟨f1, f2, f3, c, f5, hf, _, hw, hw0, _, hh, hh0, _, hm, hm1, hm255, hsp, hlen, _⟩ :=
    ImageLoad_inversion mem f img h
  obtain ⟨hiw, hih, hip⟩ := hint
  have hp0 : 0 ≤ img.width * img.height := mul_nonneg hw0 hh0
  have hcount : toInt32 (img.width * img.height) = img.width * img.height :=
    toInt32_of_fits ⟨by omega, hip⟩
  subst hf
  unfold ImageLoad at hcopy
  unfold ImageLoad32
  simp only [if_true, hw, hh, hm] at hcopy
  simp only [if_true, scanInt32_of_fits hw ⟨by omega, hiw⟩,
    scanInt32_of_fits hh ⟨by omega, hih⟩, scanInt32_of_fits hm ⟨by omega, by omega⟩, hcount,
    hp0, true_and]
  exact hcopy

/-- The file `P5\n65536 65536\n255\n`, which ends with its header, is loaded as a
65536×65536 image: the pixel count `w*h` is an `int` and comes out as 0. -/
theorem ImageLoad32_fileHuge (mem : Nat → Nat) :
    ∃ img, ImageLoad32 mem fileHuge = some img ∧ img.width = 65536 ∧ img.height = 65536 ∧
      img.maxval = 255 := by
  have h1 : scanInt32 (skipComments (skipSpace
      [10, 54, 53, 53, 51, 54, 32, 54, 53, 53, 51, 54, 10, 50, 53, 53, 10])) =
      some (65536, [32, 54, 53, 53, 51, 54, 10, 50, 53, 53, 10]) := by decide
  have h2 : scanInt32 (skipComments (skipSpace [32, 54, 53, 53, 51, 54, 10, 50, 53, 53, 10])) =
      some (65536, [10, 50, 53, 53, 10]) := by decide
  have h3 : scanInt32 (skipComments (skipSpace [10, 50, 53, 53, 10])) = some (255, [10]) := by
    decide
  have hc : toInt32 (65536 * 65536) = 0 := by decide
  have hsp : isspace 10 = true := by decide
  have hw : (65536 : Int) ≥ 0 := by decide
  have hm : (0 : Int) < 255 ∧ (255 : Int) ≤ (PixMax : Int) := by decide
  have hcr : ImageCreate mem 65536 65536 ((255 : Int) % 256).toNat =
      some { width := 65536, height := 65536,
             maxval := ((((255 : Int) % 256).toNat : Nat) : Int),
             pixel := (List.range ((65536 : Int) * 65536).toNat).map
               (fun i => mem i % 256) } :=
    if_pos (by decide)
  unfold fileHuge ImageLoad32
  simp only [if_true, h1, h2, h3]
  rw [if_pos hw, if_pos hm]
  simp only [hsp, if_true]
  rw [hcr]
  generalize List.map (fun i => mem i % 256) (List.range ((65536 : Int) * 65536).toNat) = px
  rw [if_pos hw]
  simp only [hc]
  exact ⟨_, rfl, rfl, rfl, rfl⟩

/-- C15, as the code has it: `ImageLoad` returns an image only if the file starts with
the two bytes `P5`; the width, height and maxval fields are present and numeric (`W`,
`H`, `M` are the numbers written there); and the byte after maxval is white space.
Moreover, for a number that fits in an `int`: the width is not negative, the height is
not negative, maxval is in 1..255, each is the field of the image returned and, when
`W*H` fits too, at least `W*H` bytes follow the header, the first `W*H` of which are the
pixels.  So no image is returned when one of these fails. -/
theorem ImageLoad32_accepts_only (mem : Nat → Nat) (f : List Nat) (img : Image)
    (h : ImageLoad32 mem f = some img) :
    ∃ f1 W f2 H f3 M c f5, f = 80 :: 53 :: f1 ∧
      startsWithNumber (skipSpace (skipComments (skipSpace f1))) = true ∧
      scanInt (skipComments (skipSpace f1)) = some (W, f2) ∧
      startsWithNumber (skipSpace (skipComments (skipSpace f2))) = true ∧
      scanInt (skipComments (skipSpace f2)) = some (H, f3) ∧
      startsWithNumber (skipSpace (skipComments (skipSpace f3))) = true ∧
      scanInt (skipComments (skipSpace f3)) = some (M, c :: f5) ∧
      isspace c = true ∧
      (fitsInt W → 0 ≤ W ∧ img.width = W) ∧ (fitsInt H → 0 ≤ H ∧ img.height = H) ∧
      (fitsInt M → (1 ≤ M ∧ M ≤ 255) ∧ img.maxval = M) ∧
      (fitsInt W → fitsInt H → fitsInt (W * H) →
        (W * H).toNat ≤ f5.length ∧ img.pixel = f5.take (W * H).toNat) := by
  unfold ImageLoad32 at h
  split at h
  · rename_i c0 f1
    split at h
    · rename_i hc0
      subst hc0
      split at h
      · cases h
      · rename_i w f2 hw
        split at h
        · rename_i hw0
          split at h
          · cases h
          · rename_i hgt f3 hh
            split at h
            · rename_i hh0
              split at h
              · cases h
              · rename_i mv f4 hmv
                split at h
                · rename_i hrange
                  split at h
                  · cases h
                  · rename_i c f5
                    split at h
                    · rename_i hsp
                      split at h
                      · cases h
                      · rename_i r0 hcreate
                        simp only at h
                        split at h
                        · rename_i hlenf
                          have hP : ((PixMax : Nat) : Int) = 255 := rfl
                          rw [hP] at hrange
                          have hmvc : (((mv % 256).toNat : Nat) : Int) = mv := by omega
                          obtain ⟨W, hW, hwW⟩ := scanInt32_eq_some hw
                          obtain ⟨H, hH, hhH⟩ := scanInt32_eq_some hh
                          obtain ⟨M, hM, hmM⟩ := scanInt32_eq_some hmv
                          unfold ImageCreate at hcreate
                          split at hcreate
                          · simp only [Option.some.injEq] at hcreate
                            subst hcreate
                            simp only [Option.some.injEq] at h
                            subst h
                            simp only [hmvc]
                            have hlen5 : (toInt32 (w * hgt)).toNat ≤ f5.length := by
                              have := hlenf.2
                              rw [List.length_take] at this
                              omega
                            subst hwW hhH hmM
                            refine ⟨f1, W, f2, H, f3, M, c, f5, rfl,
                              (scanInt_isSome _).1 ⟨_, hW⟩, hW,
                              (scanInt_isSome _).1 ⟨_, hH⟩, hH,
                              (scanInt_isSome _).1 ⟨_, hM⟩, hM, hsp, ?_, ?_, ?_, ?_⟩
                            · intro hf
                              rw [storeInt_of_fits hf] at hw0
                              exact ⟨hw0, storeInt_of_fits hf⟩
                            · intro hf
                              rw [storeInt_of_fits hf] at hh0
                              exact ⟨hh0, storeInt_of_fits hf⟩
                            · intro hf
                              rw [storeInt_of_fits hf] at hrange
                              exact ⟨⟨by omega, hrange.2⟩, storeInt_of_fits hf⟩
                            · intro hfW hfH hfP
                              rw [storeInt_of_fits hfW, storeInt_of_fits hfH,
                                toInt32_of_fits hfP] at hlen5 ⊢
                              refine ⟨hlen5, ?_⟩
                              rw [List.drop_eq_nil_of_le (by simp), List.append_nil]
                          · cases hcreate
                        · cases h
                    · cases h
                · cases h
            · cases h
        · cases h
    · cases h
  · cases h

/-- An instance of C15: the file written for the 2×2 image. -/
theorem ImageLoad32_accepts_only_witness :
    ∃ f1 W f2 H f3 M c f5, ImageSave img2x2 = 80 :: 53 :: f1 ∧
      startsWithNumber (skipSpace (skipComments (skipSpace f1))) = true ∧
      scanInt (skipComments (skipSpace f1)) = some (W, f2) ∧
      startsWithNumber (skipSpace (skipComments (skipSpace f2))) = true ∧
      scanInt (skipComments (skipSpace f2)) = some (H, f3) ∧
      startsWithNumber (skipSpace (skipComments (skipSpace f3))) = true ∧
      scanInt (skipComments (skipSpace f3)) = some (M, c :: f5) ∧
      isspace c = true ∧
      (fitsInt W → 0 ≤ W ∧ img2x2.width = W) ∧ (fitsInt H → 0 ≤ H ∧ img2x2.height = H) ∧
      (fitsInt M → (1 ≤ M ∧ M ≤ 255) ∧ img2x2.maxval = M) ∧
      (fitsInt W → fitsInt H → fitsInt (W * H) →
        (W * H).toNat ≤ f5.length ∧ img2x2.pixel = f5.take (W * H).toNat) :=
  ImageLoad32_accepts_only zeroMem (ImageSave img2x2) img2x2 (by decide)

/-- C15 fails as stated.  The file `P52 1\n7\tAB`, whose first token is `P52`, is loaded
as a 2×1 image of maxval 7, because no white space is required after `P5`; the file
`P5\n1 1\n4294967551\nA`, whose maxval field is 4294967551, is loaded as a 1×1 image of
maxval 255; the file `P5\n4294967296 1\n255\n`, where no byte follows the header, is
loaded as an image of width 0; and the 19-byte file `P5\n65536 65536\n255\n`, where no
byte follows the header either, is loaded as a 65536×65536 image. -/
theorem ImageLoad32_accepts_malformed :
    (magicToken fileP52 = [80, 53, 50] ∧
      ImageLoad32 zeroMem fileP52 =
        some { width := 2, height := 1, maxval := 7, pixel := [65, 66] }) ∧
    ((∃ f3, fileBigMaxval = 80 :: 53 :: 10 :: 49 :: 32 :: 49 :: f3 ∧
        scanInt (skipComments (skipSpace f3)) = some (4294967551, [10, 65])) ∧
      ImageLoad32 zeroMem fileBigMaxval =
        some { width := 1, height := 1, maxval := 255, pixel := [65] }) ∧
    ((∃ f1, fileBigWidth = 80 :: 53 :: f1 ∧
        scanInt (skipComments (skipSpace f1)) =
          some (4294967296, [32, 49, 10, 50, 53, 53, 10])) ∧
      ImageLoad32 zeroMem fileBigWidth =
        some { width := 0, height := 1, maxval := 255, pixel := [] }) ∧
    (fileHuge.length = 19 ∧
      ∃ img, ImageLoad32 zeroMem fileHuge = some img ∧ img.width = 65536 ∧
        img.height = 65536 ∧ img.maxval = 255) := by
  refine ⟨⟨by decide, by decide⟩, ⟨⟨_, rfl, by decide⟩, by decide⟩,
    ⟨⟨_, rfl, by decide⟩, by decide⟩, rfl, ImageLoad32_fileHuge zeroMem⟩

/-! ### Blur: the trivial window and the gray range -/

/-- The effect of `ImageBlur`: every level becomes the clipped box mean of the levels the
image had before the call. -/
theorem blur_run (mem : Nat → Nat) (img : Image) (dx dy : Int) (hwf : img.wf)
    (hdx : 0 ≤ dx) (hdy : 0 ≤ dy) :
    ∃ r, ImageBlur mem img dx dy = some r ∧ r.sameShape img ∧ r.lenOK ∧
      ∀ x y : Int, ImageValidPos img x y = true →
        ImageGetPixel r x y = some (boxMean img x y dx dy) := by
  have hwf' := hwf
  obtain ⟨h0w, h0h, hm0, hm, hlen, hpix⟩ := hwf
  obtain ⟨t0, hc, htw, hth, htm, htl⟩ := ImageCreate_spec mem h0w h0h hm0 hm
  obtain ⟨t, hrun1, _, _, hnew1, _⟩ := fill_raster
    (fun a b s => blurPixel img dx dy a b s)
    img.height.toNat img.width.toNat (fun _ b => (b : Int)) (fun a _ => (a : Int))
    (fun a b => boxMean img b a dx dy) t0 htl
    (fun a b ha hb => by rw [validPos_iff, htw, hth]; dsimp only; omega)
    (fun a b a' b' _ _ _ _ e1 e2 => by
      simp only at e1 e2
      omega)
    (fun a b s ha hb _ _ _ => blurPixel_eq img dx dy hwf' hdx hdy a b ha hb s)
  obtain ⟨r, hrun2, hsh2, hl2, hnew2, _⟩ := fill_raster
    (fun a b s => copyPixel t a b s)
    img.height.toNat img.width.toNat (fun _ b => (b : Int)) (fun a _ => (a : Int))
    (fun a b => boxMean img b a dx dy) img hlen
    (fun a b ha hb => by rw [validPos_iff]; dsimp only; omega)
    (fun a b a' b' _ _ _ _ e1 e2 => by
      simp only at e1 e2
      omega)
    (fun a b s ha hb _ _ _ => by
      have hg := hnew1 a b ha hb
      simp only at hg
      show copyPixel t a b s = ImageSetPixel s b a (boxMean img b a dx dy)
      unfold copyPixel
      rw [hg, Nat.mod_eq_of_lt (by have := boxMean_le img b a dx dy hpix; omega)])
  refine ⟨r, ?_, hsh2, hl2, ?_⟩
  · unfold ImageBlur
    simp only
    rw [if_pos ⟨hdx, hdy⟩, hc]
    simp only
    rw [hrun1]
    exact hrun2
  · intro x y hv
    obtain ⟨h1, h2, h3, h4⟩ := (validPos_iff img x y).1 hv
    have hg := hnew2 y.toNat x.toNat (by omega) (by omega)
    simp only [Int.toNat_of_nonneg h1, Int.toNat_of_nonneg h3] at hg
    rw [hg, Nat.mod_eq_of_lt (by have := boxMean_le img x y dx dy hpix; omega)]

/-- With `dx = dy = 0` the window holds the pixel itself and nothing else. -/
theorem boxMean_zero {img : Image} {x y : Int} {v : Nat} (hlen : img.lenOK)
    (hget : ImageGetPixel img x y = some v) : boxMean img x y 0 0 = v := by
  have hv : ImageValidPos img x y = true := by
    by_contra hc
    rw [getPixel_invalid (by simpa using hc)] at hget
    cases hget
  have hsum := boxSamples_eq img x y 0 0 hlen
  have hone : ((0 : Int) - 0 + 1).toNat = 1 := by decide
  have hc : contrib img x y = ((v : Int), 1) := by
    simp [contrib, hv, levelAt, hget]
  simp only [neg_zero, hone, Finset.sum_range_one, Nat.cast_zero, add_zero, hc,
    Prod.mk.injEq] at hsum
  unfold boxMean
  have h1 : (boxSamples img x y 0 0).sum = v := by omega
  have h2 : (boxSamples img x y 0 0).length = 1 := by omega
  rw [h1, h2, Nat.div_one]

/-- C21: `ImageBlur(img, 0, 0)` succeeds and leaves the image as it was: the same width,
height and maxval and the same level at every position. -/
theorem ImageBlur_zero (mem : Nat → Nat) (img : Image) (hwf : img.wf) :
    ∃ r, ImageBlur mem img 0 0 = some r ∧ r.width = img.width ∧ r.height = img.height ∧
      r.maxval = img.maxval ∧ (∀ x y : Int, ImageGetPixel r x y = ImageGetPixel img x y) ∧
      r = img := by
  obtain ⟨r, hrun, hsh, hl, hnew⟩ := blur_run mem img 0 0 hwf (le_refl 0) (le_refl 0)
  obtain ⟨h0w, _, _, _, hlen, _⟩ := hwf
  have hget : ∀ x y : Int, ImageGetPixel r x y = ImageGetPixel img x y := by
    intro x y
    by_cases hv : ImageValidPos img x y = true
    · obtain ⟨v, hg, _⟩ := getPixel_isSome hlen hv
      rw [hnew x y hv, boxMean_zero hlen hg, hg]
    · have hv' : ImageValidPos img x y = false := by simpa using hv
      rw [getPixel_invalid hv', getPixel_invalid (by rw [validPos_congr hsh]; exact hv')]
  exact ⟨r, hrun, hsh.1, hsh.2.1, hsh.2.2, hget,
    image_ext hsh (by rw [hsh.1]; exact h0w) hl hlen hget⟩

/-- An instance of C21: the 3×3 image. -/
theorem ImageBlur_zero_witness :
    ∃ r, ImageBlur sevenMem img3x3 0 0 = some r ∧ r.width = img3x3.width ∧
      r.height = img3x3.height ∧ r.maxval = img3x3.maxval ∧
      (∀ x y : Int, ImageGetPixel r x y = ImageGetPixel img3x3 x y) ∧ r = img3x3 :=
  ImageBlur_zero sevenMem img3x3 (by decide)

theorem getPixel_valid {img : Image} {x y : Int} {v : Nat}
    (h : ImageGetPixel img x y = some v) : ImageValidPos img x y = true := by
  by_contra hc
  rw [getPixel_invalid (by simpa using hc)] at h
  cases h

/-- The result of `ImageStats` on a non-empty image bounds every level and is attained. -/
theorem stats_run (img : Image) (hlen : img.lenOK) (hpix : ∀ p ∈ img.pixel, p < 256)
    (hne : 0 < img.width * img.height) :
    ∃ mn mx, ImageStats img = some (mn, mx) ∧ (∀ s ∈ img.pixel, mn ≤ s ∧ s ≤ mx) ∧
      mn ∈ img.pixel ∧ mx ∈ img.pixel := by
  have key := forRange_inv (statsStep img)
    (fun i mm => (∀ j, j < i → ∀ v, img.pixel[j]? = some v → mm.1 ≤ v ∧ v ≤ mm.2) ∧
      (i = 0 → mm.1 = 255 ∧ mm.2 = 0) ∧ (0 < i → mm.1 ∈ img.pixel ∧ mm.2 ∈ img.pixel))
    (img.width * img.height).toNat 0 (PixMax, 0)
    ⟨fun j hj => absurd hj (Nat.not_lt_zero _), fun _ => ⟨rfl, rfl⟩,
      fun h => absurd h (Nat.lt_irrefl _)⟩ ?_
  · obtain ⟨⟨mn, mx⟩, hrun, hbound, _, hmem⟩ := key
    simp only [Nat.zero_add] at hbound hmem
    refine ⟨mn, mx, hrun, ?_, hmem (by omega)⟩
    intro s hs
    obtain ⟨j, hj, hget⟩ := List.mem_iff_getElem.1 hs
    exact hbound j (by rw [← hlen]; exact hj) s (by rw [List.getElem?_eq_getElem hj, hget])
  · rintro i ⟨mn, mx⟩ _ hi ⟨hbound, hzero, hmem⟩
    have hilt : i < img.pixel.length := by rw [hlen]; omega
    have hget : img.pixel[i]? = some img.pixel[i] := List.getElem?_eq_getElem hilt
    have hcur : img.pixel[i] ∈ img.pixel := List.getElem_mem _
    have hc256 := hpix _ hcur
    refine ⟨(if img.pixel[i] < mn then img.pixel[i] else mn,
      if img.pixel[i] > mx then img.pixel[i] else mx), ?_, ?_, ?_, ?_⟩
    · simp only [statsStep, hget]
    · intro j hj v hv
      simp only
      by_cases hji : j = i
      · subst hji
        rw [hget] at hv
        cases hv
        constructor <;> split <;> omega
      · have := hbound j (by omega) v hv
        simp only at this
        constructor <;> split <;> omega
    · intro h0
      omega
    · intro _
      simp only
      by_cases hi0 : i = 0
      · have hz := hzero hi0
        simp only at hz
        constructor
        · split
          · exact hcur
          · have : img.pixel[i] = mn := by omega
            rw [← this]; exact hcur
        · split
          · exact hcur
          · have : img.pixel[i] = mx := by omega
            rw [← this]; exact hcur
      · have hm := hmem (by omega)
        simp only at hm
        constructor
        · split
          · exact hcur
          · exact hm.1
        · split
          · exact hcur
          · exact hm.2

/-- The truncating mean of a non-empty box lies between any two bounds of the levels. -/
theorem boxMean_between (img : Image) (x y dx dy : Int) (mn mx : Nat)
    (hb : ∀ s ∈ img.pixel, mn ≤ s ∧ s ≤ mx) (hpos : 0 < (boxSamples img x y dx dy).length) :
    mn ≤ boxMean img x y dx dy ∧ boxMean img x y dx dy ≤ mx := by
  have hin : ∀ v ∈ boxSamples img x y dx dy, mn ≤ v ∧ v ≤ mx := by
    intro v hv
    simp only [boxSamples, List.mem_filterMap] at hv
    obtain ⟨p, _, hget⟩ := hv
    exact hb v (getPixel_mem hget)
  have hlo := List.card_nsmul_le_sum (boxSamples img x y dx dy) mn (fun v hv => (hin v hv).1)
  have hhi := List.sum_le_card_nsmul (boxSamples img x y dx dy) mx (fun v hv => (hin v hv).2)
  simp only [smul_eq_mul] at hlo hhi
  unfold boxMean
  constructor
  · rw [Nat.le_div_iff_mul_le hpos, Nat.mul_comm]
    exact hlo
  · apply Nat.div_le_of_le_mul
    exact hhi

/-- C24: on a non-empty image, if `ImageStats` gives `(min, max)` before the call then
`ImageBlur` succeeds and every level of the result lies in `[min, max]` (so it fits in
8 bits); an image whose levels are all equal is left as it was. -/
theorem ImageBlur_range (mem : Nat → Nat) (img : Image) (dx dy : Int) (mn mx : Nat)
    (hwf : img.wf) (hne : 0 < img.width * img.height) (hdx : 0 ≤ dx) (hdy : 0 ≤ dy)
    (hst : ImageStats img = some (mn, mx)) :
    ∃ r, ImageBlur mem img dx dy = some r ∧
      (∀ s ∈ r.pixel, mn ≤ s ∧ s ≤ mx ∧ s ≤ 255) ∧
      (∀ x y : Int, ImageValidPos img x y = true →
        ∃ s, ImageGetPixel r x y = some s ∧ mn ≤ s ∧ s ≤ mx) ∧
      (mn = mx → r = img) := by
  obtain ⟨r, hrun, hsh, hl, hnew⟩ := blur_run mem img dx dy hwf hdx hdy
  obtain ⟨h0w, _, _, _, hlen, hpix⟩ := hwf
  obtain ⟨mn', mx', hst', hbound, _, hmx⟩ := stats_run img hlen hpix hne
  rw [hst] at hst'
  simp only [Option.some.injEq, Prod.mk.injEq] at hst'
  obtain ⟨e1, e2⟩ := hst'
  subst e1 e2
  have hmean : ∀ x y : Int, ImageValidPos img x y = true →
      mn ≤ boxMean img x y dx dy ∧ boxMean img x y dx dy ≤ mx := fun x y hv =>
    boxMean_between img x y dx dy mn mx hbound (boxSamples_pos img x y dx dy hlen hdx hdy hv)
  have hmx255 : mx ≤ 255 := by
    have := hpix mx hmx
    omega
  refine ⟨r, hrun, ?_, ?_, ?_⟩
  · intro s hs
    obtain ⟨x, y, hget⟩ := mem_pixel_get (by rw [hsh.1]; exact h0w) hl hs
    have hv : ImageValidPos img x y = true := by
      rw [← validPos_congr hsh]; exact getPixel_valid hget
    rw [hnew x y hv] at hget
    cases hget
    have := hmean x y hv
    omega
  · intro x y hv
    exact ⟨_, hnew x y hv, hmean x y hv⟩
  · intro heq
    apply image_ext hsh (by rw [hsh.1]; exact h0w) hl hlen
    intro x y
    by_cases hv : ImageValidPos img x y = true
    · obtain ⟨v, hg, hmem⟩ := getPixel_isSome hlen hv
      have h1 := hmean x y hv
      have h2 := hbound v hmem
      rw [hnew x y hv, hg]
      congr 1
      omega
    · have hv' : ImageValidPos img x y = false := by simpa using hv
      rw [getPixel_invalid hv', getPixel_invalid (by rw [validPos_congr hsh]; exact hv')]

/-- An instance of C24: the 3×3 image, whose levels run from 1 to 9, blurred with
`dx = dy = 1`. -/
theorem ImageBlur_range_witness :
    ∃ r, ImageBlur zeroMem img3x3 1 1 = some r ∧
      (∀ s ∈ r.pixel, 1 ≤ s ∧ s ≤ 9 ∧ s ≤ 255) ∧
      (∀ x y : Int, ImageValidPos img3x3 x y = true →
        ∃ s, ImageGetPixel r x y = some s ∧ 1 ≤ s ∧ s ≤ 9) ∧
      (1 = 9 → r = img3x3) :=
  ImageBlur_range zeroMem img3x3 1 1 1 9 (by decide) (by decide) (by decide) (by decide)
    (by decide)

/-! ### The get/set law and the safety of the search -/

/-- C22: for a valid position `(x,y)` the linear index `y*width + x` lies in
`[0, width*height)`, so `G` returns it and its assertions hold; distinct valid positions
have distinct indices; and after `ImageSetPixel(img,x,y,v)` the level at `(x,y)` is `v`
while every other valid position keeps its level (width, height and maxval keep theirs). -/
theorem pixel_get_set (img : Image) (x y : Int) (v : Nat) (hwf : img.wf)
    (hv : ImageValidPos img x y = true) (hv8 : v < 256) :
    (0 ≤ y * img.width + x ∧ y * img.width + x < img.width * img.height ∧
      G img x y = some (y * img.width + x).toNat ∧
      (y * img.width + x).toNat < img.pixel.length) ∧
    (∀ x' y' : Int, ImageValidPos img x' y' = true → ¬ (x' = x ∧ y' = y) →
      y' * img.width + x' ≠ y * img.width + x ∧ G img x' y' ≠ G img x y) ∧
    ∃ img', ImageSetPixel img x y v = some img' ∧ img'.width = img.width ∧
      img'.height = img.height ∧ img'.maxval = img.maxval ∧
      ImageGetPixel img' x y = some v ∧
      ∀ x' y' : Int, ImageValidPos img x' y' = true → ¬ (x' = x ∧ y' = y) →
        ImageGetPixel img' x' y' = ImageGetPixel img x' y' := by
  obtain ⟨_, _, _, _, hlen, _⟩ := hwf
  obtain ⟨a1, a2, a3, a4⟩ := (validPos_iff img x y).1 hv
  have hb := index_bound a1 a2 a3 a4
  refine ⟨⟨hb.1, hb.2, G_eq hv, index_lt_length hlen hv⟩, ?_, ?_⟩
  · intro x' y' hv' hne
    obtain ⟨b1, b2, b3, b4⟩ := (validPos_iff img x' y').1 hv'
    have hb' := index_bound b1 b2 b3 b4
    have hidx : y' * img.width + x' ≠ y * img.width + x := by
      intro he
      exact hne (index_inj b1 b2 a1 a2 he)
    refine ⟨hidx, ?_⟩
    rw [G_eq hv', G_eq hv]
    intro he
    simp only [Option.some.injEq] at he
    omega
  · obtain ⟨img', hset, hsh, _, hget, hother⟩ := setPixel_spec v hlen hv
    rw [Nat.mod_eq_of_lt hv8] at hget
    exact ⟨img', hset, hsh.1, hsh.2.1, hsh.2.2, hget, fun x' y' _ hne => hother x' y' hne⟩

/-- An instance of C22: level 77 stored at `(1,2)` of the 3×3 image. -/
theorem pixel_get_set_witness :
    (0 ≤ 2 * img3x3.width + 1 ∧ 2 * img3x3.width + 1 < img3x3.width * img3x3.height ∧
      G img3x3 1 2 = some (2 * img3x3.width + 1).toNat ∧
      (2 * img3x3.width + 1).toNat < img3x3.pixel.length) ∧
    (∀ x' y' : Int, ImageValidPos img3x3 x' y' = true → ¬ (x' = 1 ∧ y' = 2) →
      y' * img3x3.width + x' ≠ 2 * img3x3.width + 1 ∧ G img3x3 x' y' ≠ G img3x3 1 2) ∧
    ∃ img', ImageSetPixel img3x3 1 2 77 = some img' ∧ img'.width = img3x3.width ∧
      img'.height = img3x3.height ∧ img'.maxval = img3x3.maxval ∧
      ImageGetPixel img' 1 2 = some 77 ∧
      ∀ x' y' : Int, ImageValidPos img3x3 x' y' = true → ¬ (x' = 1 ∧ y' = 2) →
        ImageGetPixel img' x' y' = ImageGetPixel img3x3 x' y' :=
  pixel_get_set img3x3 1 2 77 (by decide) (by decide) (by decide)

/-- C23: when `img2` has width and height at least 1, every position `(x,y)` of the scan
of `ImageLocateSubImage` (`y` from 0 to `height1 - height2`, `x` from 0 to
`width1 - width2`) satisfies `ImageValidRect`; there the assertion of
`ImageMatchSubImage` holds, every `ImageGetPixel` of the comparison is in bounds and the
comparison returns; and the search itself returns.  The empty image searched in the
empty image, on the contrary, aborts. -/
theorem ImageLocate_safe (img1 img2 : Image) (px py : Int) (h1 : img1.wf) (h2 : img2.wf)
    (hw : 1 ≤ img2.width) (hh : 1 ≤ img2.height) :
    (∀ y x : Nat, y < (img1.height - img2.height + 1).toNat →
      x < (img1.width - img2.width + 1).toNat →
      ImageValidRect img1 x y img2.width img2.height = true ∧
      ImageValidPos img1 x y = true ∧
      (∀ dy dx : Nat, dy < img2.height.toNat → dx < img2.width.toNat →
        ∃ v2 v1, ImageGetPixel img2 dx dy = some v2 ∧
          ImageGetPixel img1 ((x : Int) + dx) ((y : Int) + dy) = some v1) ∧
      (∃ r, ImageMatchSubImage img1 x y img2 = some r) ∧
      locateStep img1 img2 y x ≠ none) ∧
    (∃ res, ImageLocateSubImage img1 px py img2 = some res) ∧
    ImageLocateSubImage img0x0 px py img0x0 = none := by
  obtain ⟨_, _, _, _, hlen1, _⟩ := h1
  obtain ⟨_, _, _, _, hlen2, _⟩ := h2
  refine ⟨?_, ?_, rfl⟩
  · intro y x hy hx
    have hrect : ImageValidRect img1 x y img2.width img2.height = true := by
      rw [validRect_corners]; omega
    have hpos : ImageValidPos img1 x y = true := by
      rw [validPos_iff]; omega
    obtain ⟨r, hr⟩ := match_total (x := (x : Int)) (y := (y : Int)) hlen1 hlen2
      (by omega) (by omega) (by omega) (by omega) hw hh
    refine ⟨hrect, hpos, ?_, ⟨r, hr⟩, ?_⟩
    · intro dy dx hdy hdx
      obtain ⟨v2, hg2, _⟩ := getPixel_isSome (x := (dx : Int)) (y := (dy : Int)) hlen2
        (by rw [validPos_iff]; omega)
      obtain ⟨v1, hg1, _⟩ := getPixel_isSome (x := (x : Int) + dx) (y := (y : Int) + dy) hlen1
        (by rw [validPos_iff]; omega)
      exact ⟨v2, v1, hg2, hg1⟩
    · intro hnone
      rw [locateStep_none hnone] at hr
      cases hr
  · have hne : ImageValidPos img1 0 0 = true ∨ img1.width < img2.width ∨
        img1.height < img2.height := by
      by_cases hfit : img2.width ≤ img1.width ∧ img2.height ≤ img1.height
      · left
        rw [validPos_iff]; omega
      · right
        omega
    rcases locate_run img1 img2 px py hlen1 hlen2 hne with ⟨x0, y0, hloc, _⟩ | ⟨hloc, _⟩
    · exact ⟨_, hloc⟩
    · exact ⟨_, hloc⟩

/-- An instance of C23: the 2×2 image searched in the 3×3 image. -/
theorem ImageLocate_safe_witness :
    (∀ y x : Nat, y < (img3x3.height - img2x2.height + 1).toNat →
      x < (img3x3.width - img2x2.width + 1).toNat →
      ImageValidRect img3x3 x y img2x2.width img2x2.height = true ∧
      ImageValidPos img3x3 x y = true ∧
      (∀ dy dx : Nat, dy < img2x2.height.toNat → dx < img2x2.width.toNat →
        ∃ v2 v1, ImageGetPixel img2x2 dx dy = some v2 ∧
          ImageGetPixel img3x3 ((x : Int) + dx) ((y : Int) + dy) = some v1) ∧
      (∃ r, ImageMatchSubImage img3x3 x y img2x2 = some r) ∧
      locateStep img3x3 img2x2 y x ≠ none) ∧
    (∃ res, ImageLocateSubImage img3x3 7 7 img2x2 = some res) ∧
    ImageLocateSubImage img0x0 7 7 img0x0 = none :=
  ImageLocate_safe img3x3 img2x2 7 7 (by decide) (by decide) (by decide) (by decide)

end Image8bit
